import Mathlib

/-!
Shallow embedding of the BibInject core (BibTeX parser, order/group engine,
snippet renderer, element injector) over `List Char`, together with theorems
settling the specification claims.  Each definition mirrors one function of
the source; strings are modelled as lists of characters and Python regular
expressions are compiled by hand into deterministic scanners equivalent to
their leftmost-match semantics on the inputs considered.
-/

namespace BibInject

/-- Python `\s` / `str.strip` whitespace, ASCII subset. -/
def pyIsSpace (c : Char) : Bool :=
  c = ' ' || c = '\t' || c = '\n' || c = '\r' || c = '\x0b' || c = '\x0c'

/-- Remove characters satisfying `p` from the front of a list. -/
def stripLeft (p : Char → Bool) (s : List Char) : List Char := s.dropWhile p

/-- Remove characters satisfying `p` from the back of a list. -/
def stripRight (p : Char → Bool) (s : List Char) : List Char :=
  (s.reverse.dropWhile p).reverse

/-- Remove characters satisfying `p` from both ends. -/
def stripBoth (p : Char → Bool) (s : List Char) : List Char :=
  stripRight p (stripLeft p s)

/-- Python `str.strip()`. -/
def pyStrip (s : List Char) : List Char := stripBoth pyIsSpace s

/-- Python `str.strip(cs)` for a set of characters `cs`. -/
def pyStripSet (cs : List Char) (s : List Char) : List Char :=
  stripBoth (fun c => cs.contains c) s

/-- Python `str.lower()`, ASCII subset. -/
def pyLower (s : List Char) : List Char := s.map Char.toLower

/-- Split a list at the first occurrence of the character `c`
(Python `s.find(c)` followed by slicing); `none` when `c` does not occur. -/
def splitAtChar (c : Char) : List Char → Option (List Char × List Char)
  | [] => none
  | x :: t =>
    if x = c then some ([], t)
    else
      match splitAtChar c t with
      | none => none
      | some (a, b) => some (x :: a, b)

/-- `Parser._extract_brace_block` after the opening brace: scan with a depth
counter, return the content before the matching closing brace (nested braces
kept) and the remainder after it; `none` when the braces are unbalanced. -/
def extract_brace_block : Nat → List Char → Option (List Char × List Char)
  | _, [] => none
  | depth, c :: t =>
    if c = '\x7b' then
      match extract_brace_block (depth + 1) t with
      | none => none
      | some (inner, rest) => some (c :: inner, rest)
    else if c = '\x7d' then
      if depth = 1 then some ([], t)
      else
        match extract_brace_block (depth - 1) t with
        | none => none
        | some (inner, rest) => some (c :: inner, rest)
    else
      match extract_brace_block depth t with
      | none => none
      | some (inner, rest) => some (c :: inner, rest)

/-- `Parser._parse_key_value`: split a `@string` body at the first `=`,
trim the name, and strip whitespace, commas, then quotes/braces from the
value; `none` when no `=` occurs (which the caller turns into a parse
error). -/
def parse_key_value (text : List Char) : Option (List Char × List Char) :=
  match splitAtChar '=' text with
  | none => none
  | some (l, r) =>
    some (pyStrip l,
      pyStripSet ['"', '\x7b', '\x7d'] (stripBoth (fun c => c = ',') (pyStrip r)))

/-- A character of Python `\w` (ASCII). -/
def isWordChar (c : Char) : Bool := c.isAlphanum || c = '_'

/-- A character matched by `[\w\-]` in the field-name regex. -/
def isFieldNameChar (c : Char) : Bool := isWordChar c || c = '-'

/-- A character matched by `[^,{}]` in the bare-value alternative. -/
def isBareValueChar (c : Char) : Bool :=
  !(c = ',' || c = '\x7b' || c = '\x7d')

/-- The regex `^[A-Za-z_][A-Za-z0-9_]*$` used to detect a bare token
eligible for string-macro expansion. -/
def isBareToken : List Char → Bool
  | [] => false
  | c :: t => (c.isAlpha || c = '_') && t.all isWordChar

/-- Body of the value alternative `{(?:[^{}]|{[^{}]*})*}` after its opening
brace: a sequence of non-brace characters or singly-nested groups, then the
closing brace.  Returns the consumed characters (closing brace included)
and the remainder. -/
def braceGroupBody : Nat → List Char → Option (List Char × List Char)
  | 0, _ => none
  | _, [] => none
  | fuel + 1, c :: t =>
    if c = '\x7d' then some ([c], t)
    else if c = '\x7b' then
      match splitAtBraceChar t with
      | none => none
      | some (a, b, r) =>
        if b = '\x7d' then
          match braceGroupBody fuel r with
          | none => none
          | some (rest1, rest2) => some (c :: (a ++ b :: rest1), rest2)
        else none
    else
      match braceGroupBody fuel t with
      | none => none
      | some (a, r) => some (c :: a, r)
where
  /-- Split at the first `{` or `}`. -/
  splitAtBraceChar : List Char → Option (List Char × Char × List Char)
    | [] => none
    | c :: t =>
      if c = '\x7b' || c = '\x7d' then some ([], c, t)
      else
        match splitAtBraceChar t with
        | none => none
        | some (a, b, r) => some (c :: a, b, r)

/-- The value alternation `({(?:[^{}]|{[^{}]*})*}|".*?"|[^,{}]+)` of the
field regex, tried in order exactly as the regex engine does: a singly
nested brace group, a lazily quoted string, or a maximal run of characters
other than comma and braces.  Returns the raw captured value (delimiters
included) and the remainder. -/
def matchFieldValue (s : List Char) : Option (List Char × List Char) :=
  match s with
  | [] => none
  | c :: t =>
    if c = '\x7b' then
      match braceGroupBody (t.length + 1) t with
      | none => none
      | some (a, r) => some (c :: a, r)
    else if c = '"' then
      match splitAtChar '"' t with
      | some (mid, rest) => some (c :: (mid ++ ['"']), rest)
      | none =>
        let run := s.takeWhile isBareValueChar
        if run.isEmpty then none else some (run, s.dropWhile isBareValueChar)
    else
      let run := s.takeWhile isBareValueChar
      if run.isEmpty then none else some (run, s.dropWhile isBareValueChar)

/-- One application of the field regex
`\s*([\w\-]+)\s*=\s*(VALUE)\s*,?` at the start of the remaining field text:
returns the field name, the raw value and the remainder after the optional
comma, or `none` when the text does not begin with an assignment. -/
def matchField (s : List Char) : Option (List Char × List Char × List Char) :=
  let s1 := s.dropWhile pyIsSpace
  let name := s1.takeWhile isFieldNameChar
  if name.isEmpty then none
  else
    let s2 := (s1.dropWhile isFieldNameChar).dropWhile pyIsSpace
    match s2 with
    | c :: s3 =>
      if c = '=' then
        let s4 := s3.dropWhile pyIsSpace
        match matchFieldValue s4 with
        | none => none
        | some (v, r) =>
          let r1 := r.dropWhile pyIsSpace
          let r2 :=
            match r1 with
            | c0 :: t => if c0 = ',' then t else c0 :: t
            | [] => []
          some (name, v, r2)
      else none
    | _ => none

/-- Post-processing of a captured raw value:
`group(2).strip()` then `.strip('"{} ')`. -/
def postValue (raw : List Char) : List Char :=
  pyStripSet ['"', '\x7b', '\x7d', ' '] (pyStrip raw)

/-- First element of the macro table that defines the name `v`
(the linear `for d in self.data["strings"]` lookup). -/
def lookupStringTable (table : List (List Char × List Char)) (v : List Char) :
    Option (List Char) :=
  match table with
  | [] => none
  | (k, val) :: rest => if k = v then some val else lookupStringTable rest v

/-- Python-dict assignment `fields[key] = value` on an insertion-ordered
association list: overwrite in place if present, else append. -/
def updateField : List (List Char × List Char) → List Char → List Char →
    List (List Char × List Char)
  | [], k, v => [(k, v)]
  | (k0, v0) :: rest, k, v =>
    if k0 = k then (k0, v) :: rest else (k0, v0) :: updateField rest k v

/-- The field-scanning loop of `Parser._parse_entry`: repeatedly apply the
field regex; on the first non-matching segment stop and return the fields
collected so far (the `break`).  A bare-token value is replaced by the
first matching entry of the macro table when `expand` is set. -/
def parse_fields : Nat → Bool → List (List Char × List Char) →
    List (List Char × List Char) → List Char → List (List Char × List Char)
  | 0, _, _, fields, _ => fields
  | fuel + 1, expand, table, fields, text =>
    if text.isEmpty then fields
    else
      match matchField text with
      | none => fields
      | some (name, raw, rest) =>
        let v0 := postValue raw
        let v :=
          if expand && isBareToken v0 then (lookupStringTable table v0).getD v0
          else v0
        parse_fields fuel expand table (updateField fields name v) rest

/-- One parsed BibTeX entry. -/
structure Entry where
  type : List Char
  key : List Char
  fields : List (List Char × List Char)
deriving Repr, DecidableEq

/-- `Parser._parse_entry`: citation key is the trimmed text before the
first comma; the remainder is scanned for `name = value` assignments.
`none` models the key-less `{"type", "raw"}` result, which the caller
turns into a parse error. -/
def parse_entry (expand : Bool) (table : List (List Char × List Char))
    (etype : List Char) (text : List Char) : Option Entry :=
  match splitAtChar ',' text with
  | none => none
  | some (before, after) =>
    if before.isEmpty then none
    else
      some { type := etype, key := pyStrip before,
             fields := parse_fields (after.length + 1) expand table [] after }

/-- The parsed document: entries, comments, preambles, string macros. -/
structure BibDocument where
  entries : List Entry
  comments : List (List Char)
  preambles : List (List Char)
  strings : List (List Char × List Char)
deriving Repr, DecidableEq

/-- Parse errors raised by `parse_string`. -/
inductive ParseErr where
  | missingBrace
  | missingType
  | unbalanced
  | badString
  | missingKey
deriving Repr, DecidableEq

/-- Strip one outer pair of double quotes from a preamble body. -/
def stripPreambleQuotes (s : List Char) : List Char :=
  if s.head? == some '"' && s.getLast? == some '"' then (s.drop 1).dropLast
  else s

/-- The empty parse state. -/
def emptyDoc : BibDocument := ⟨[], [], [], []⟩

/-- The scanning loop of `Parser.parse_string`: find the next `@`, read the
block type up to the next `{`, extract the balanced brace block, dispatch
on the type, and continue after the block.  A duplicate citation key is
dropped (first occurrence wins). -/
def parse_blocks : Nat → Bool → BibDocument → List Char →
    Except ParseErr BibDocument
  | 0, _, st, _ => .ok st
  | fuel + 1, expand, st, s =>
    match splitAtChar '@' s with
    | none => .ok st
    | some (_, afterAt) =>
      match splitAtChar '\x7b' afterAt with
      | none => .error .missingBrace
      | some (typeRaw, afterBrace) =>
        let etype := pyLower (pyStrip typeRaw)
        if etype.isEmpty then .error .missingType
        else
          match extract_brace_block 1 afterBrace with
          | none => .error .unbalanced
          | some (blockContent, rest) =>
            if etype = "comment".toList then
              parse_blocks fuel expand
                { st with comments := st.comments ++ [pyStrip blockContent] } rest
            else if etype = "preamble".toList then
              parse_blocks fuel expand
                { st with preambles :=
                    st.preambles ++ [stripPreambleQuotes (pyStrip blockContent)] } rest
            else if etype = "string".toList then
              match parse_key_value blockContent with
              | none => .error .badString
              | some kv => parse_blocks fuel expand
                  { st with strings := st.strings ++ [kv] } rest
            else
              match parse_entry expand st.strings etype blockContent with
              | none => .error .missingKey
              | some e =>
                if e.key.isEmpty then .error .missingKey
                else if st.entries.any (fun e0 => e0.key == e.key) then
                  parse_blocks fuel expand st rest
                else
                  parse_blocks fuel expand
                    { st with entries := st.entries ++ [e] } rest

/-- Flush the pending whitespace run of the line-join normalization:
a run containing a newline collapses to a single space. -/
def flushRun (run : List Char) (hasNl : Bool) : List Char :=
  if hasNl then [' '] else run.reverse

/-- Worker for `re.sub(r"\s*\n\s*", " ", content)`: every maximal
whitespace run containing a newline becomes one space. -/
def normLineJoins : List Char → Bool → List Char → List Char
  | run, hasNl, [] => flushRun run hasNl
  | run, hasNl, c :: t =>
    if pyIsSpace c then normLineJoins (c :: run) (hasNl || c == '\n') t
    else flushRun run hasNl ++ c :: normLineJoins [] false t

/-- The line-continuation normalization applied by `parse_string` before
scanning. -/
def normalizeLineJoins (s : List Char) : List Char := normLineJoins [] false s

/-- `Parser.parse_string`: normalize line joins, then scan all blocks. -/
def parse_string (expand : Bool) (content : List Char) :
    Except ParseErr BibDocument :=
  let c := normalizeLineJoins content
  parse_blocks (c.length + 1) expand emptyDoc c

/-! ### Order/group engine (`group_gen.py`) -/

/-- First value bound to `name` in a field mapping (Python `dict.get`). -/
def getField (fields : List (List Char × List Char)) (name : List Char) :
    Option (List Char) :=
  match fields with
  | [] => none
  | (k, v) :: rest => if k = name then some v else getField rest name

/-- Python `str.isdigit` (ASCII). -/
def pyIsDigits (s : List Char) : Bool := !s.isEmpty && s.all Char.isDigit

/-- Decimal value of a digit string. -/
def digitsToNat (s : List Char) : Nat :=
  s.foldl (fun n c => 10 * n + (c.toNat - 48)) 0

/-- The case-insensitive month-name/abbreviation table of `order_entries`. -/
def month_map : List (List Char × Nat) :=
  [("jan".toList, 1), ("january".toList, 1), ("feb".toList, 2),
   ("february".toList, 2), ("mar".toList, 3), ("march".toList, 3),
   ("apr".toList, 4), ("april".toList, 4), ("may".toList, 5),
   ("jun".toList, 6), ("june".toList, 6), ("jul".toList, 7),
   ("july".toList, 7), ("aug".toList, 8), ("august".toList, 8),
   ("sep".toList, 9), ("september".toList, 9), ("oct".toList, 10),
   ("october".toList, 10), ("nov".toList, 11), ("november".toList, 11),
   ("dec".toList, 12), ("december".toList, 12)]

/-- Lookup in `month_map` with default 0. -/
def monthMapGet (m : List Char) : Nat :=
  match month_map.find? (fun kv => kv.1 = m) with
  | some kv => kv.2
  | none => 0

/-- The `(year, month)` sort key of `order_entries`: integer year (0 when
absent or non-numeric) and table month (0 when absent or unrecognized). -/
def year_month_key (e : Entry) : Nat × Nat :=
  let yearRaw := (getField e.fields "year".toList).getD []
  let year := if pyIsDigits yearRaw then digitsToNat yearRaw else 0
  let monthRaw := pyLower (pyStrip ((getField e.fields "month".toList).getD []))
  (year, monthMapGet monthRaw)

/-- Python `str.replace` (all non-overlapping occurrences, left to right),
with explicit fuel. -/
def pyReplaceFuel : Nat → List Char → List Char → List Char → List Char
  | 0, s, _, _ => s
  | fuel + 1, s, pat, repl =>
    match s with
    | [] => []
    | c :: t =>
      if pat.isPrefixOf s then repl ++ pyReplaceFuel fuel (s.drop pat.length) pat repl
      else c :: pyReplaceFuel fuel t pat repl

/-- Python `str.replace` for a non-empty pattern. -/
def pyReplace (s pat repl : List Char) : List Char :=
  pyReplaceFuel (s.length + 1) s pat repl

/-- Split a list at the first occurrence of the substring `sep`. -/
def splitAtSub (sep : List Char) : List Char → Option (List Char × List Char)
  | [] => none
  | c :: t =>
    if sep.isPrefixOf (c :: t) then some ([], (c :: t).drop sep.length)
    else
      match splitAtSub sep t with
      | none => none
      | some (a, b) => some (c :: a, b)

/-- Python `str.split(sep)` for a non-empty separator, with explicit fuel. -/
def pySplitFuel : Nat → List Char → List Char → List (List Char)
  | 0, s, _ => [s]
  | fuel + 1, s, sep =>
    match splitAtSub sep s with
    | none => [s]
    | some (a, b) => a :: pySplitFuel fuel b sep

/-- Python `str.split(sep)` for a non-empty separator. -/
def pySplit (s sep : List Char) : List (List Char) :=
  pySplitFuel (s.length + 1) s sep

/-- Whether `sub` occurs as a substring (Python `in`). -/
def containsSub (s sub : List Char) : Bool := (splitAtSub sub s).isSome

/-- Python `str.split()` (split on whitespace runs, dropping empties). -/
def pyWordsGo : List Char → List Char → List (List Char)
  | acc, [] => if acc.isEmpty then [] else [acc.reverse]
  | acc, c :: t =>
    if pyIsSpace c then
      if acc.isEmpty then pyWordsGo [] t else acc.reverse :: pyWordsGo [] t
    else pyWordsGo (c :: acc) t

/-- Python `str.split()`. -/
def pyWords (s : List Char) : List (List Char) := pyWordsGo [] s

/-- From the normalized author string: split on `" and "`, strip the
segments and drop blank ones; from the first segment take the text before
the first comma, or else the final whitespace token; lowercase and
strip. -/
def lastNameFromNormalized (s4 : List Char) : List Char :=
  let authors := ((pySplit s4 " and ".toList).map pyStrip).filter
    (fun a => !a.isEmpty)
  match authors with
  | [] => []
  | primary :: _ =>
    let last :=
      match splitAtChar ',' primary with
      | some (before, _) => before
      | none => ((pyWords primary).getLast?).getD []
    pyStrip (pyLower last)

/-- `get_last_name` from `group_gen.order_entries` for a string author
field (continued below): strip, then apply the replacement chain of the
source — `" AND "`, `" And "`, `" AND"` and finally every occurrence of
the substring `"and"`, each replaced by `" and "` — and take the last
name of the first `" and "`-separated segment. -/
def get_last_name (author_field : List Char) : List Char :=
  if author_field.isEmpty then []
  else
    lastNameFromNormalized
      (pyReplace (pyReplace (pyReplace (pyReplace (pyStrip author_field)
        " AND ".toList " and ".toList) " And ".toList " and ".toList)
        " AND".toList " and ".toList) "and".toList " and ".toList)

/-- The author sort key of `order_entries`. -/
def author_key (e : Entry) : List Char :=
  get_last_name ((getField e.fields "author".toList).getD [])

/-- Boolean `≤` on `(year, month)` keys (lexicographic on naturals). -/
def ymLe (k1 k2 : Nat × Nat) : Bool :=
  k1.1 < k2.1 || (k1.1 = k2.1 && k1.2 ≤ k2.2)

/-- Boolean `≤` on character lists (Python string comparison,
code-point lexicographic). -/
def charListLe : List Char → List Char → Bool
  | [], _ => true
  | _ :: _, [] => false
  | a :: s, b :: t => if a = b then charListLe s t else decide (a < b)

/-- Insert `a` before the first element `b` with `le a b` (the insertion
step of a stable insertion sort). -/
def orderedInsertLe (le : α → α → Bool) (a : α) : List α → List α
  | [] => [a]
  | b :: t => if le a b then a :: b :: t else b :: orderedInsertLe le a t

/-- Stable insertion sort by a boolean total preorder: the unique stable
sort, hence the model of Python `sorted`. -/
def insertionSortLe (le : α → α → Bool) : List α → List α
  | [] => []
  | a :: t => orderedInsertLe le a (insertionSortLe le t)

/-- `GroupHTMLGenerator.order_entries`: a stable sort by the author key
when `group == "author"`, else by the `(year, month)` key; `reverse`
flips the comparison while keeping equal keys in input order (Python
`sorted(..., reverse=True)`). -/
def order_entries (entries : List Entry) (reverse : Bool)
    (group : Option (List Char)) : List Entry :=
  if group = some "author".toList then
    insertionSortLe (fun e1 e2 =>
      if reverse then charListLe (author_key e2) (author_key e1)
      else charListLe (author_key e1) (author_key e2)) entries
  else
    insertionSortLe (fun e1 e2 =>
      if reverse then ymLe (year_month_key e2) (year_month_key e1)
      else ymLe (year_month_key e1) (year_month_key e2)) entries

/-- The author list an entry is filed under in `group_entries`: if the
lowercased author string contains `" and "`, split the original string on
the literal `" and "` and strip each part; otherwise the whole string is
one author. -/
def splitAuthors (authors : List Char) : List (List Char) :=
  if containsSub (pyLower authors) " and ".toList then
    (pySplit authors " and ".toList).map pyStrip
  else [authors]

/-- The bucket keys of an entry under author grouping (`fields.get
("author", [])`: a missing author field contributes no buckets). -/
def authorsOf (e : Entry) : List (List Char) :=
  match getField e.fields "author".toList with
  | none => []
  | some a => splitAuthors a

/-- `grouped.setdefault(k, []).append(e)` on an insertion-ordered
association list. -/
def bucketAppend (g : List (List Char × List Entry)) (k : List Char)
    (e : Entry) : List (List Char × List Entry) :=
  match g with
  | [] => [(k, [e])]
  | (k0, l) :: rest =>
    if k0 = k then (k0, l ++ [e]) :: rest else (k0, l) :: bucketAppend rest k e

/-- File one entry under each of its authors. -/
def addAuthorBuckets (g : List (List Char × List Entry)) (e : Entry) :
    List (List Char × List Entry) :=
  (authorsOf e).foldl (fun g0 a => bucketAppend g0 a e) g

/-- The author branch of `GroupHTMLGenerator.group_entries`. -/
def group_by_author (entries : List Entry) : List (List Char × List Entry) :=
  entries.foldl addAuthorBuckets []

/-- The twelve month names used by year/month grouping. -/
def month_names : List (List Char) :=
  ["January".toList, "February".toList, "March".toList, "April".toList,
   "May".toList, "June".toList, "July".toList, "August".toList,
   "September".toList, "October".toList, "November".toList,
   "December".toList]

/-- Month resolution of `group_entries`: a digit string 1–12 maps to the
month name; otherwise the first month name whose lowercase form starts
with the first three characters of the stripped, lowercased field; `none`
when the field is absent, blank, an out-of-range number, or unmatched. -/
def resolveMonth (fields : List (List Char × List Char)) : Option (List Char) :=
  let mv := pyLower (pyStrip ((getField fields "month".toList).getD []))
  if mv.isEmpty then none
  else if mv.all Char.isDigit then
    let idx := digitsToNat mv
    if 1 ≤ idx && idx ≤ 12 then month_names.get? (idx - 1) else none
  else
    month_names.find? (fun name => (mv.take 3).isPrefixOf (pyLower name))

/-- The year bucket key: the `year` field verbatim, or `"Unknown"`. -/
def yearKeyOf (e : Entry) : List Char :=
  (getField e.fields "year".toList).getD "Unknown".toList

/-- The month bucket key: resolved month name, or `"Unknown"`. -/
def monthKeyOf (e : Entry) : List Char :=
  (resolveMonth e.fields).getD "Unknown".toList

/-- `grouped.setdefault(year, {}).setdefault(month, []).append(e)` on
nested association lists. -/
def bucketAppend2 (g : List (List Char × List (List Char × List Entry)))
    (y m : List Char) (e : Entry) :
    List (List Char × List (List Char × List Entry)) :=
  match g with
  | [] => [(y, [(m, [e])])]
  | (k0, inner) :: rest =>
    if k0 = y then (k0, bucketAppend inner m e) :: rest
    else (k0, inner) :: bucketAppend2 rest y m e

/-- The year/month branch of `group_entries`. -/
def group_by_year_month (entries : List Entry) :
    List (List Char × List (List Char × List Entry)) :=
  entries.foldl (fun g e => bucketAppend2 g (yearKeyOf e) (monthKeyOf e) e) []

/-- The flat year branch of `group_entries` (any other `by`). -/
def group_by_year (entries : List Entry) : List (List Char × List Entry) :=
  entries.foldl (fun g e => bucketAppend g (yearKeyOf e) e) []

/-- The two result shapes of `group_entries`. -/
inductive Grouped where
  | flat : List (List Char × List Entry) → Grouped
  | nested : List (List Char × List (List Char × List Entry)) → Grouped
deriving Repr, DecidableEq

/-- `GroupHTMLGenerator.group_entries` dispatch. -/
def group_entries (entries : List Entry) (by_ : List Char) : Grouped :=
  if by_ = "author".toList then .flat (group_by_author entries)
  else if by_ = "year/month".toList || by_ = "ym".toList || by_ = "month".toList then
    .nested (group_by_year_month entries)
  else .flat (group_by_year entries)

/-! ### Snippet renderer (`gen.py`) -/

/-- One attempt of the placeholder regex `\{\{\s*(\w+)\s*\}\}` at the
start of `s`: the placeholder name and the remainder, or `none`. -/
def matchPlaceholder (s : List Char) : Option (List Char × List Char) :=
  match s with
  | c1 :: c2 :: t =>
    if c1 = '\x7b' && c2 = '\x7b' then
      let t1 := t.dropWhile pyIsSpace
      let name := t1.takeWhile isWordChar
      if name.isEmpty then none
      else
        match (t1.dropWhile isWordChar).dropWhile pyIsSpace with
        | d1 :: d2 :: r =>
          if d1 = '\x7d' && d2 = '\x7d' then some (name, r) else none
        | _ => none
    else none
  | _ => none

/-- The placeholder substitution of `Generator._render`: every
`{{ name }}` is replaced by the entry's field value, or the empty string
when the field is absent (with a non-fatal diagnostic). -/
def substPlaceholders (fields : List (List Char × List Char)) :
    Nat → List Char → List Char
  | 0, s => s
  | fuel + 1, s =>
    match s with
    | [] => []
    | c :: t =>
      match matchPlaceholder s with
      | some (name, r) =>
        ((getField fields name).getD []) ++ substPlaceholders fields fuel r
      | none => c :: substPlaceholders fields fuel t

/-- Substituted template body. -/
def render_substitute (fields : List (List Char × List Char))
    (middle : List Char) : List Char :=
  substPlaceholders fields (middle.length + 1) middle

/-- Cleanup rule 1, `re.sub(r"\(\s*\)", "", text)`: remove parenthesis
groups containing only whitespace. -/
def trimParens : Nat → List Char → List Char
  | 0, s => s
  | fuel + 1, s =>
    match s with
    | [] => []
    | c :: t =>
      if c = '(' then
        match t.dropWhile pyIsSpace with
        | ')' :: r => trimParens fuel r
        | _ => c :: trimParens fuel t
      else c :: trimParens fuel t

/-- Cleanup rules 2–3, `re.sub(r"\s+X", "X", text)`: remove a whitespace
run immediately preceding the character `target`. -/
def trimWsBefore (target : Char) : Nat → List Char → List Char
  | 0, s => s
  | fuel + 1, s =>
    match s with
    | [] => []
    | c :: t =>
      if pyIsSpace c then
        match s.dropWhile pyIsSpace with
        | [] => s.takeWhile pyIsSpace
        | r0 :: r =>
          if r0 = target then r0 :: trimWsBefore target fuel r
          else s.takeWhile pyIsSpace ++ trimWsBefore target fuel (r0 :: r)
      else c :: trimWsBefore target fuel t

/-- Cleanup rules 4–6, `re.sub(r"X\s*Y", "Z", text)`: collapse the
punctuation pair `x … y` (with intervening whitespace) to `z`. -/
def trimPunctPair (x y z : Char) : Nat → List Char → List Char
  | 0, s => s
  | fuel + 1, s =>
    match s with
    | [] => []
    | c :: t =>
      if c = x then
        match t.dropWhile pyIsSpace with
        | y0 :: r =>
          if y0 = y then z :: trimPunctPair x y z fuel r
          else c :: trimPunctPair x y z fuel t
        | [] => c :: trimPunctPair x y z fuel t
      else c :: trimPunctPair x y z fuel t

/-- Cleanup rule 7, `re.sub(r"[ ]{2,}", " ", text)`: collapse runs of two
or more spaces (newlines untouched). -/
def collapseSpaces : Nat → List Char → List Char
  | 0, s => s
  | fuel + 1, s =>
    match s with
    | [] => []
    | c :: t =>
      if c = ' ' then
        let run := s.takeWhile (fun c0 => c0 = ' ')
        if 2 ≤ run.length then ' ' :: collapseSpaces fuel (s.dropWhile (fun c0 => c0 = ' '))
        else c :: collapseSpaces fuel t
      else c :: collapseSpaces fuel t

/-- Cleanup rule 8, `re.sub(r"^[ ]+|[ ]+$", "", text, flags=MULTILINE)`:
strip leading/trailing spaces on every line, preserving newlines. -/
def stripSpacesEachLine (s : List Char) : List Char :=
  List.intercalate ['\n']
    ((pySplit s ['\n']).map (stripBoth (fun c => c = ' ')))

/-- `Generator._trim`: the cleanup rules applied in source order. -/
def gen_trim (text : List Char) : List Char :=
  let t1 := trimParens (text.length + 1) text
  let t2 := trimWsBefore ',' (t1.length + 1) t1
  let t3 := trimWsBefore '.' (t2.length + 1) t2
  let t4 := trimPunctPair ',' ',' ',' (t3.length + 1) t3
  let t5 := trimPunctPair ',' '.' '.' (t4.length + 1) t4
  let t6 := trimPunctPair '.' '.' '.' (t5.length + 1) t5
  let t7 := collapseSpaces (t6.length + 1) t6
  stripSpacesEachLine t7

/-- `Generator._render`: substitute placeholders into the middle part,
clean it up, and concatenate the three parts. -/
def gen_render (fields : List (List Char × List Char))
    (opening middle closing : List Char) : List Char :=
  opening ++ gen_trim (render_substitute fields middle) ++ closing

/-- A space or tab (the `[ \t]` class). -/
def isBlank (c : Char) : Bool := c = ' ' || c = '\t'

/-- The opening-tag part of the splitter regex
`^[ \t]*<p\s+id="bi-{type}"[^>]*>\s*\n` tried at a line start: on success,
the captured group (ending at the last newline of the whitespace run
following `>`) and the remainder. -/
def matchOpenP (tp s : List Char) : Option (List Char × List Char) :=
  let indent := s.takeWhile isBlank
  match s.dropWhile isBlank with
  | a1 :: a2 :: s2 =>
    if a1 = '<' then if a2 = 'p' then
    match s2 with
    | c :: _ =>
      if pyIsSpace c then
        let ws := s2.takeWhile pyIsSpace
        let s3 := s2.dropWhile pyIsSpace
        let lit := "id=\"bi-".toList ++ tp ++ ['"']
        if lit.isPrefixOf s3 then
          let s4 := s3.drop lit.length
          match splitAtChar '>' s4 with
          | none => none
          | some (attrs, s5) =>
            let run := s5.takeWhile pyIsSpace
            match splitAtLastNl run with
            | none => none
            | some (runA, runB) =>
              some (indent ++ '<' :: 'p' :: ws ++ lit ++ attrs ++ '>' :: runA,
                    runB ++ s5.dropWhile pyIsSpace)
        else none
      else none
    | [] => none
    else none else none
  | _ => none
where
  /-- Split a list after its last newline: `(through last newline, after)`;
  `none` when it has no newline. -/
  splitAtLastNl : List Char → Option (List Char × List Char)
    | [] => none
    | c :: t =>
      match splitAtLastNl t with
      | some (a, b) => some (c :: a, b)
      | none => if c = '\n' then some ([c], t) else none

/-- The closing-tag part `^[ \t]*</p>` tried at a line start: the captured
indent plus `</p>`, or `none`. -/
def checkCloseP (s : List Char) : Option (List Char) :=
  let indent := s.takeWhile isBlank
  if "</p>".toList.isPrefixOf (s.dropWhile isBlank) then
    some (indent ++ "</p>".toList)
  else none

/-- Find the nearest subsequent line start matching `^[ \t]*</p>` (the
lazy middle group of the splitter regex): the inner content up to that
line and the captured closing group. -/
def findCloseP : Nat → List Char → Option (List Char × List Char)
  | 0, _ => none
  | fuel + 1, s =>
    match checkCloseP s with
    | some close => some ([], close)
    | none =>
      match splitAtChar '\n' s with
      | none => none
      | some (line, rest) =>
        match findCloseP fuel rest with
        | none => none
        | some (inner, close) => some (line ++ '\n' :: inner, close)

/-- The leftmost-match search of `Generator._Splitter.split`: try the
block pattern at every line start in order. -/
def splitterScan (tp : List Char) : Nat → List Char →
    Option (List Char × List Char × List Char)
  | 0, _ => none
  | fuel + 1, s =>
    match matchOpenP tp s with
    | some (g1, rest) =>
      match findCloseP (rest.length + 1) rest with
      | some (inner, close) => some (g1, inner, close)
      | none =>
        match splitAtChar '\n' s with
        | none => none
        | some (_, rest1) => splitterScan tp fuel rest1
    | none =>
      match splitAtChar '\n' s with
      | none => none
      | some (_, rest1) => splitterScan tp fuel rest1

/-- `Generator._Splitter.split`: the three captured groups
`[opening tag, middle content, closing tag]`, or `none` (modelling
`HTMLElementNotFoundError`). -/
def splitter_split (tp html : List Char) :
    Option (List Char × List Char × List Char) :=
  splitterScan tp (html.length + 1) html

/-! ### Element injector (`injector.py`) -/

/-- The two quote characters accepted by `id=["\']{target_id}["\']`. -/
def quoteChars : List Char := ['"', Char.ofNat 39]

/-- Whether `seg` contains `id=` followed by the target id between any
combination of single/double quotes. -/
def idAttrHit (tid seg : List Char) : Bool :=
  quoteChars.any (fun q1 => quoteChars.any (fun q2 =>
    containsSub seg ('i' :: 'd' :: '=' :: q1 :: (tid ++ [q2]))))

/-- The pattern `<div\s+[^>]*id=["\']tid["\'][^>]*>` tried at the start of
`s`: the whole opening tag and the remainder after `>`. -/
def checkOpenDiv (tid s : List Char) : Option (List Char × List Char) :=
  match s with
  | a1 :: a2 :: a3 :: a4 :: s1 =>
    if a1 = '<' && a2 = 'd' && a3 = 'i' && a4 = 'v' then
      match s1 with
      | c :: _ =>
        if pyIsSpace c then
          match splitAtChar '>' s1 with
          | none => none
          | some (seg, rest) =>
            if idAttrHit tid seg then
              some ('<' :: 'd' :: 'i' :: 'v' :: (seg ++ ['>']), rest)
            else none
        else none
      | [] => none
    else none
  | _ => none

/-- The MULTILINE search of `open_div_pattern`: the captured leading
indent of the first line whose (whitespace-prefixed) content starts with
a matching opening div tag. -/
def findOpenDivIndent (tid : List Char) : Nat → List Char → Option (List Char)
  | 0, _ => none
  | fuel + 1, s =>
    match checkOpenDiv tid (s.dropWhile isBlank) with
    | some _ => some (s.takeWhile isBlank)
    | none =>
      match splitAtChar '\n' s with
      | none => none
      | some (_, rest) => findOpenDivIndent tid fuel rest

/-- The unanchored search of `full_div_pattern`: the first position where
a matching opening div tag is followed (lazily) by `</div>`; returns
`(text before the match, opening tag, inner, text after the match)`. -/
def findFullDiv (tid : List Char) : Nat → List Char →
    Option (List Char × List Char × List Char × List Char)
  | 0, _ => none
  | fuel + 1, s =>
    match checkOpenDiv tid s with
    | some (tag, rest) =>
      match splitAtSub "</div>".toList rest with
      | some (inner, post) => some ([], tag, inner, post)
      | none => none
    | none =>
      match s with
      | [] => none
      | c :: t =>
        match findFullDiv tid fuel t with
        | none => none
        | some (pre, tag, inner, post) => some (c :: pre, tag, inner, post)

/-- `Injector._detect_indent_unit`: the leading whitespace of the first
line that has both leading whitespace and further content; two spaces
when no line qualifies. -/
def detect_indent_unit : List (List Char) → List Char
  | [] => [' ', ' ']
  | line :: rest =>
    let lead := line.takeWhile pyIsSpace
    let stripped := line.dropWhile pyIsSpace
    if !stripped.isEmpty && !lead.isEmpty then lead
    else detect_indent_unit rest

/-- Errors of `Injector.inject_html`. -/
inductive InjectErr where
  | elementNotFound
  | injectionFailed
deriving Repr, DecidableEq

/-- The replacement interior built by `inject_html`: newline, the
re-indented content, newline, base indent. -/
def injectedInner (base_indent unit content : List Char) : List Char :=
  let stripped := stripBoth (fun c => c = '\n') content
  let lines := if stripped.isEmpty then [] else pySplit stripped ['\n']
  let indented := List.intercalate ['\n'] (lines.map (fun l => base_indent ++ unit ++ l))
  '\n' :: indented ++ '\n' :: base_indent

/-- `Injector.inject_html`: find the first line-anchored opening div with
the target id (its indent is the base indent), detect the indent unit,
re-indent the content, and replace the interior of the first (unanchored)
full `<div …>…</div>` block with the new interior. -/
def inject_html (html content tid : List Char) : Except InjectErr (List Char) :=
  match findOpenDivIndent tid (html.length + 1) html with
  | none => .error .elementNotFound
  | some base_indent =>
    let unit := detect_indent_unit (pySplit html ['\n'])
    match findFullDiv tid (html.length + 1) html with
    | none => .error .injectionFailed
    | some (pre, tag, _inner, post) =>
      .ok (pre ++ tag ++ injectedInner base_indent unit content ++
           "</div>".toList ++ post)

/-- Text with two entry blocks sharing the citation key `K`. -/
def dupKeyText : List Char :=
  "@article\x7bK, title = \x7bA\x7d, \x7d @article\x7bK, title = \x7bB\x7d, \x7d".toList

/-- Entry text with a non-matching segment between two well-formed field
assignments. -/
def brokenFieldsText : List Char :=
  "@article\x7bk, a = \x7b1\x7d, ?bad?, b = \x7b2\x7d, \x7d".toList

/-- Entry text whose field section starts with a non-matching segment. -/
def brokenFieldsHeadText : List Char :=
  "@article\x7bk, !!, a = \x7b1\x7d\x7d".toList

/-- 2024/March sample entry. -/
def c3Mar : Entry :=
  ⟨"article".toList, "m24".toList,
   [("year".toList, "2024".toList), ("month".toList, "March".toList)]⟩

/-- 2024/January sample entry. -/
def c3Jan : Entry :=
  ⟨"article".toList, "j24".toList,
   [("year".toList, "2024".toList), ("month".toList, "January".toList)]⟩

/-- 2023, no month. -/
def c3Y23 : Entry :=
  ⟨"article".toList, "y23".toList, [("year".toList, "2023".toList)]⟩

/-- Non-numeric year, unrecognized month. -/
def c3Odd : Entry :=
  ⟨"article".toList, "odd".toList,
   [("year".toList, "n/a".toList), ("month".toList, "Fog".toList)]⟩

/-- Same sort key as `c3Mar`, different citation key (stability probe). -/
def c3Mar2 : Entry :=
  ⟨"article".toList, "m24b".toList,
   [("year".toList, "2024".toList), ("month".toList, "mar".toList)]⟩

/-! ### Grouping characterizations (claims C5, C6) -/

/-- Lookup of a bucket by key, empty when absent. -/
def bucketGet (g : List (List Char × List Entry)) (k : List Char) :
    List Entry :=
  match g with
  | [] => []
  | (k0, l) :: rest => if k0 = k then l else bucketGet rest k

/-- Lookup in the nested year → month buckets, empty when absent. -/
def bucket2Get (g : List (List Char × List (List Char × List Entry)))
    (y m : List Char) : List Entry :=
  match g with
  | [] => []
  | (k0, inner) :: rest => if k0 = y then bucketGet inner m else bucket2Get rest y m

/-- The contents of an author bucket predicted from the entry list: each
entry appears once per occurrence of the bucket key among its authors, in
input order. -/
def authorBucketSpec : List Entry → List Char → List Entry
  | [], _ => []
  | e :: t, k => List.replicate ((authorsOf e).count k) e ++ authorBucketSpec t k

/-- The contents of a year/month bucket predicted from the entry list. -/
def ymBucketSpec (entries : List Entry) (y m : List Char) : List Entry :=
  entries.filter (fun e => yearKeyOf e == y && monthKeyOf e == m)

/-- An author string using the case-variant separator `" AND "`. -/
def c5CaseVariant : Entry :=
  ⟨"misc".toList, "cv".toList, [("author".toList, "A AND B".toList)]⟩

/-- An entry with two authors joined by the literal `" and "`. -/
def c5TwoAuthors : Entry :=
  ⟨"misc".toList, "tw".toList, [("author".toList, "X One and Y Two".toList)]⟩

/-- An entry with a single author and no separator. -/
def c5Solo : Entry :=
  ⟨"misc".toList, "so".toList, [("author".toList, "Solo Author".toList)]⟩

/-- An entry with numeric month field `"3"`. -/
def c6Month3 : Entry :=
  ⟨"misc".toList, "m3".toList,
   [("year".toList, "2024".toList), ("month".toList, "3".toList)]⟩

/-- An entry with no month and no year field. -/
def c6Bare : Entry := ⟨"misc".toList, "bare".toList, [("note".toList, "x".toList)]⟩

/-! ### Author-key analysis (claim C4) -/

/-- Whether the text begins with a separator word occurrence as the claim
describes it: a space, a case variant of `and`, a space. -/
def isAndSepAt (s : List Char) : Bool :=
  match s with
  | ' ' :: c1 :: c2 :: c3 :: ' ' :: _ =>
    c1.toLower = 'a' && c2.toLower = 'n' && c3.toLower = 'd'
  | _ => false

/-- Split at the first separator-word occurrence (claim-side). -/
def findAndSepWord : List Char → Option (List Char × List Char)
  | [] => none
  | c :: t =>
    if isAndSepAt (c :: t) then some ([], (c :: t).drop 5)
    else
      match findAndSepWord t with
      | none => none
      | some (a, b) => some (c :: a, b)

/-- The last-name procedure exactly as the claim words it: normalize every
case variant of the separator word `"and"` (take the segment before the
first ` <case-variant-of-and> ` occurrence), then the text before the
first comma, or else the final whitespace-delimited token, lowercased. -/
def claimLastName (author : List Char) : List Char :=
  if author.isEmpty then []
  else
    let s := pyStrip author
    let primary :=
      match findAndSepWord s with
      | some (a, _) => a
      | none => s
    let last :=
      match splitAtChar ',' primary with
      | some (before, _) => before
      | none => ((pyWords primary).getLast?).getD []
    pyStrip (pyLower last)

/-- Python `str.replace` expressed through split and join
(`s.replace(p, r) == r.join(s.split(p))`). -/
def replaceBySplit (s pat repl : List Char) : List Char :=
  List.intercalate repl (pySplit s pat)

/-- The normalization chain of the code, described on the spec side via
split-and-join replacement. -/
def amendedNormalize (s : List Char) : List Char :=
  replaceBySplit
    (replaceBySplit
      (replaceBySplit
        (replaceBySplit s " AND ".toList " and ".toList)
        " And ".toList " and ".toList)
      " AND".toList " and ".toList)
    "and".toList " and ".toList

/-- The amended last-name procedure: strip; replace the substrings
`" AND "`, `" And "`, `" AND"` and then every remaining occurrence of the
substring `"and"` by `" and "`; split on `" and "`, strip the segments and
drop blank ones; from the first segment take the text before the first
comma, or else the final whitespace token; lowercase and strip.  Missing
or empty author gives the empty key. -/
def amendedLastName (author : List Char) : List Char :=
  if author.isEmpty then []
  else lastNameFromNormalized (amendedNormalize (pyStrip author))

/-- The example fields of the C7 scenario. -/
def c7Fields : List (List Char × List Char) :=
  [("author".toList, "A. B.".toList), ("year".toList, "2020".toList)]

/-- The example template body of the C7 scenario. -/
def c7Template : List Char := "\x7b\x7bauthor\x7d\x7d. (\x7b\x7byear\x7d\x7d).".toList

/-- The field text `k, note = N,` of the C1 scenario entry. -/
def c1Entry (N : List Char) : List Char :=
  'k' :: ',' :: (' ' :: 'n' :: 'o' :: 't' :: 'e' :: ' ' :: '=' :: ' ' :: (N ++ [',']))

def c1StringBlock (N V rest : List Char) : List Char :=
  '@' :: ("string".toList ++ '\x7b' :: ((N ++ " = \"".toList ++ V ++ ['"']) ++ '\x7d' :: rest))

def c1EntryBlock (N rest : List Char) : List Char :=
  '@' :: ("misc".toList ++ '\x7b' :: (c1Entry N ++ '\x7d' :: rest))

/-- Shape of an opening tag accepted by `checkOpenDiv`: literal `<div`,
one whitespace character, attribute text free of `>` containing the
quoted id attribute, then `>`. -/
def OpenDivTag (tid tag : List Char) : Prop :=
  ∃ c0 seg, tag = '<' :: 'd' :: 'i' :: 'v' :: ((c0 :: seg) ++ ['>']) ∧
    pyIsSpace c0 = true ∧ '>' ∉ (c0 :: seg) ∧ idAttrHit tid (c0 :: seg) = true

/-- Claim-side shape for C9: an opening tag of any element name carrying
the quoted target id (the claim speaks of elements, not only of divs). -/
def ClaimOpenTag (tid tag : List Char) : Prop :=
  ∃ name c0 seg, tag = '<' :: (name ++ (c0 :: seg ++ ['>'])) ∧ name ≠ [] ∧
    (∀ c ∈ name, c.isAlpha = true) ∧ pyIsSpace c0 = true ∧
    '>' ∉ (c0 :: seg) ∧ idAttrHit tid (c0 :: seg) = true

/-- Claim-side condition for C9: the document contains, somewhere, an
element opening tag carrying the target id. -/
def ClaimIdElementAt (tid html : List Char) : Prop :=
  ∃ pre tag rest, html = pre ++ tag ++ rest ∧ ClaimOpenTag tid tag

def c9Span : List Char := "<span id=\"pubs\">A</span>".toList

def c9Host : List Char :=
  "<html>\n  <body>\n    <div id=\"pubs\">OLD</div>\n    <div id=\"pubs\"></div>\n  </body>\n</html>".toList

def c9Out : List Char :=
  "<html>\n  <body>\n    <div id=\"pubs\">\n      X\n    </div>\n    <div id=\"pubs\"></div>\n  </body>\n</html>".toList

/-! ### Splitter lemmas (claim C8) -/

/-- A prefix that is either empty or ends at a line break. -/
def LineEndOk (u : List Char) : Prop := u = [] ∨ u.getLast? = some '\n'

/-- Shape of the splitter's first captured group: indent, `<p`, whitespace,
the id literal, attribute text without `>`, then `>` and a whitespace run
ending in a newline. -/
def POpenGroup (tp g1 : List Char) : Prop :=
  ∃ indent ws attrs wsnl,
    g1 = indent ++ '<' :: 'p' ::
        (ws ++ (("id=\"bi-".toList ++ tp ++ ['"']) ++ (attrs ++ '>' :: wsnl))) ∧
    (∀ c ∈ indent, isBlank c = true) ∧ ws ≠ [] ∧
    (∀ c ∈ ws, pyIsSpace c = true) ∧ '>' ∉ attrs ∧
    (∀ c ∈ wsnl, pyIsSpace c = true) ∧ wsnl.getLast? = some '\n'

/-- Shape of the splitter's third captured group: blank indent + `</p>`. -/
def PCloseGroup (g3 : List Char) : Prop :=
  ∃ ind, g3 = ind ++ "</p>".toList ∧ (∀ c ∈ ind, isBlank c = true)

/-- Claim-side shape for C8: a marker block `<tag id="bi-{type}"> … </tag>`
with any element name, as the claim and the StyleTemplate description
describe it. -/
def ClaimTagBlock (tp html : List Char) : Prop :=
  ∃ tag pre mid post, tag ≠ [] ∧ (∀ c ∈ tag, c.isAlpha = true) ∧
    html = pre ++ ('<' :: (tag ++ (' ' :: ("id=\"bi-".toList ++ tp ++ ['"', '>'])))) ++
      mid ++ ('<' :: '/' :: (tag ++ ['>'])) ++ post

def c8DivHtml : List Char := "<div id=\"bi-article\">\n x\n</div>".toList

def c8Template : List Char :=
  "<div>\n  <p id=\"bi-article\" class=\"x\">\n    \x7b\x7bauthor\x7d\x7d. (\x7b\x7byear\x7d\x7d). \x7b\x7btitle\x7d\x7d.\n  </p>\n</div>".toList

def c8G1 : List Char := "  <p id=\"bi-article\" class=\"x\">\n".toList

def c8G2 : List Char := "    \x7b\x7bauthor\x7d\x7d. (\x7b\x7byear\x7d\x7d). \x7b\x7btitle\x7d\x7d.\n".toList

def c8G3 : List Char := "  </p>".toList

/-! ### Duplicate-key invariant (claim C2) -/

/-- The scanning loop preserves distinctness of citation keys: a block
whose key is already present leaves the entry list unchanged, and a new
key is appended only when absent. -/
theorem parse_blocks_nodup (fuel : Nat) :
    ∀ (expand : Bool) (st : BibDocument) (s : List Char) (doc : BibDocument),
      parse_blocks fuel expand st s = .ok doc →
      (st.entries.map Entry.key).Nodup → (doc.entries.map Entry.key).Nodup := by
  induction fuel with
  | zero =>
    intro expand st s doc h hn
    simp only [parse_blocks] at h
    cases h
    exact hn
  | succ n ih =>
    intro expand st s doc h hn
    simp only [parse_blocks] at h
    split at h
    · cases h; exact hn
    · split at h
      · cases h
      · split at h
        · cases h
        · split at h
          · cases h
          · split at h
            · exact ih _ _ _ _ h hn
            · split at h
              · exact ih _ _ _ _ h hn
              · split at h
                · split at h
                  · cases h
                  · exact ih _ _ _ _ h hn
                · split at h
                  · cases h
                  · split at h
                    · cases h
                    · split at h
                      · exact ih _ _ _ _ h hn
                      · rename_i e _ _ hany
                        refine ih _ _ _ _ h ?_
                        simp only [List.map_append, List.map_cons, List.map_nil]
                        rw [List.nodup_append]
                        refine ⟨hn, List.nodup_singleton _, ?_⟩
                        intro a ha hb
                        simp only [List.mem_singleton] at hb
                        subst hb
                        simp only [List.mem_map] at ha
                        obtain ⟨e0, he0, hkey⟩ := ha
                        have := List.any_eq_false.mp (eq_false_of_ne_true hany) e0 he0
                        simp only [beq_iff_eq] at this
                        exact this hkey

/-- C2: after every successful parse the entries carry pairwise distinct
citation keys; on a text with two blocks keyed `K` only the first block's
entry (with its field values) survives, the parse succeeds, and exactly
one entry with that key remains. -/
theorem claim_C2 :
    (∀ (expand : Bool) (content : List Char) (doc : BibDocument),
        parse_string expand content = .ok doc →
        (doc.entries.map Entry.key).Nodup) ∧
    parse_string false dupKeyText =
      .ok { entries := [⟨"article".toList, "K".toList,
                        [("title".toList, "A".toList)]⟩],
            comments := [], preambles := [], strings := [] } := by
  constructor
  · intro expand content doc h
    exact parse_blocks_nodup _ expand emptyDoc _ doc h (by simp [emptyDoc])
  · rfl

/-- Witness: the duplicate-key text from `claim_C2` instantiates the
universally quantified invariant. -/
theorem claim_C2_witness :
    (([⟨"article".toList, "K".toList, [("title".toList, "A".toList)]⟩] :
        List Entry).map Entry.key).Nodup :=
  claim_C2.1 false dupKeyText _ claim_C2.2

/-- C10: a field segment that does not match a `name = value` assignment
stops field scanning: the parse still succeeds, the entry keeps only the
assignments scanned before that point, and the rest of the field text
(including any later well-formed assignments) is silently discarded. -/
theorem claim_C10 :
    parse_string false brokenFieldsText =
      .ok { entries := [⟨"article".toList, "k".toList,
                        [("a".toList, "1".toList)]⟩],
            comments := [], preambles := [], strings := [] } ∧
    parse_string false brokenFieldsHeadText =
      .ok { entries := [⟨"article".toList, "k".toList, []⟩],
            comments := [], preambles := [], strings := [] } :=
  ⟨rfl, rfl⟩

/-! ### Stable sort lemmas (claim C3) -/

theorem mem_orderedInsertLe (le : α → α → Bool) (a x : α) :
    ∀ l, x ∈ orderedInsertLe le a l ↔ x = a ∨ x ∈ l := by
  intro l
  induction l with
  | nil => simp [orderedInsertLe]
  | cons b t ih =>
    simp only [orderedInsertLe]
    split
    · simp [List.mem_cons]
    · simp only [List.mem_cons, ih]
      tauto

theorem perm_orderedInsertLe (le : α → α → Bool) (a : α) :
    ∀ l, (orderedInsertLe le a l).Perm (a :: l) := by
  intro l
  induction l with
  | nil => exact List.Perm.refl _
  | cons b t ih =>
    simp only [orderedInsertLe]
    split
    · exact List.Perm.refl _
    · exact (ih.cons b).trans (List.Perm.swap a b t)

theorem perm_insertionSortLe (le : α → α → Bool) :
    ∀ l, (insertionSortLe le l).Perm l := by
  intro l
  induction l with
  | nil => exact List.Perm.refl _
  | cons a t ih =>
    exact (perm_orderedInsertLe le a (insertionSortLe le t)).trans (ih.cons a)

theorem pairwise_orderedInsertLe (le : α → α → Bool)
    (htot : ∀ a b, (le a b || le b a) = true)
    (htrans : ∀ a b c, le a b = true → le b c = true → le a c = true) (a : α) :
    ∀ l, l.Pairwise (fun x y => le x y = true) →
      (orderedInsertLe le a l).Pairwise (fun x y => le x y = true) := by
  intro l
  induction l with
  | nil => intro _; simp [orderedInsertLe]
  | cons b t ih =>
    intro hp
    rcases List.pairwise_cons.mp hp with ⟨hb, pt⟩
    simp only [orderedInsertLe]
    split
    · rename_i hab
      refine List.pairwise_cons.mpr ⟨?_, hp⟩
      intro x hx
      rcases List.mem_cons.mp hx with rfl | hxt
      · exact hab
      · exact htrans a b x hab (hb x hxt)
    · rename_i hab
      have hba : le b a = true := by
        have := htot a b
        rcases Bool.or_eq_true_iff.mp this with h1 | h1
        · exact absurd h1 hab
        · exact h1
      refine List.pairwise_cons.mpr ⟨?_, ih pt⟩
      intro x hx
      rcases (mem_orderedInsertLe le a x t).mp hx with rfl | hxt
      · exact hba
      · exact hb x hxt

theorem pairwise_insertionSortLe (le : α → α → Bool)
    (htot : ∀ a b, (le a b || le b a) = true)
    (htrans : ∀ a b c, le a b = true → le b c = true → le a c = true) :
    ∀ l, (insertionSortLe le l).Pairwise (fun x y => le x y = true) := by
  intro l
  induction l with
  | nil => simp [insertionSortLe]
  | cons a t ih => exact pairwise_orderedInsertLe le htot htrans a _ ih

theorem ymLe_total (k1 k2 : Nat × Nat) : (ymLe k1 k2 || ymLe k2 k1) = true := by
  simp only [ymLe, Bool.or_eq_true, decide_eq_true_eq, Bool.and_eq_true]
  omega

theorem ymLe_trans (k1 k2 k3 : Nat × Nat) (h1 : ymLe k1 k2 = true)
    (h2 : ymLe k2 k3 = true) : ymLe k1 k3 = true := by
  simp only [ymLe, Bool.or_eq_true, decide_eq_true_eq, Bool.and_eq_true] at *
  omega

theorem charListLe_total : ∀ a b : List Char, (charListLe a b || charListLe b a) = true := by
  intro a
  induction a with
  | nil => intro b; simp [charListLe]
  | cons x s ih =>
    intro b
    cases b with
    | nil => simp [charListLe]
    | cons y t =>
      simp only [charListLe]
      by_cases hxy : x = y
      · subst hxy
        simp only [if_pos rfl]
        exact ih t
      · have hyx : ¬ y = x := fun h => hxy h.symm
        simp only [if_neg hxy, if_neg hyx, Bool.or_eq_true, decide_eq_true_eq]
        rcases lt_trichotomy x y with h | h | h
        · exact Or.inl h
        · exact absurd h hxy
        · exact Or.inr h

theorem charListLe_trans : ∀ a b c : List Char, charListLe a b = true →
    charListLe b c = true → charListLe a c = true := by
  intro a
  induction a with
  | nil => intro b c _ _; simp [charListLe]
  | cons x s ih =>
    intro b c h1 h2
    cases b with
    | nil => simp [charListLe] at h1
    | cons y t =>
      cases c with
      | nil => simp [charListLe] at h2
      | cons z u =>
        simp only [charListLe] at h1 h2 ⊢
        by_cases hxy : x = y
        · subst hxy
          simp only [if_pos rfl] at h1
          by_cases hyz : x = z
          · subst hyz
            simp only [if_pos rfl] at h2 ⊢
            exact ih t u h1 h2
          · simp only [if_neg hyz] at h2 ⊢
            exact h2
        · simp only [if_neg hxy] at h1
          by_cases hyz : y = z
          · subst hyz
            simp only [if_neg hxy]
            exact h1
          · simp only [if_neg hyz] at h2
            have hxz : x < z := lt_trans (of_decide_eq_true h1) (of_decide_eq_true h2)
            have : ¬ x = z := ne_of_lt hxz
            simp [if_neg this, hxz]

/-- C3: with `group ≠ "author"`, `order_entries` stably sorts by the
`(year, month)` key — integer year (0 when absent/non-numeric), table
month (0 when absent/unrecognized) — ascending for `reverse=false` and
descending for `reverse=true`; the sample `[2023, 2024-Jan, 2024-Mar]`
reversed comes out `[2024-Mar, 2024-Jan, 2023]`, and entries with equal
keys keep their input order. -/
theorem claim_C3 :
    (∀ (entries : List Entry) (g : Option (List Char)),
        g ≠ some "author".toList →
        (order_entries entries true g).Perm entries ∧
        (order_entries entries true g).Pairwise
          (fun e1 e2 => ymLe (year_month_key e2) (year_month_key e1) = true) ∧
        (order_entries entries false g).Perm entries ∧
        (order_entries entries false g).Pairwise
          (fun e1 e2 => ymLe (year_month_key e1) (year_month_key e2) = true)) ∧
    year_month_key c3Mar = (2024, 3) ∧
    year_month_key c3Jan = (2024, 1) ∧
    year_month_key c3Y23 = (2023, 0) ∧
    year_month_key c3Odd = (0, 0) ∧
    order_entries [c3Y23, c3Jan, c3Mar] true none = [c3Mar, c3Jan, c3Y23] ∧
    order_entries [c3Mar, c3Jan, c3Y23] false none = [c3Y23, c3Jan, c3Mar] ∧
    order_entries [c3Mar, c3Mar2, c3Jan] true none = [c3Mar, c3Mar2, c3Jan] := by
  refine ⟨?_, by decide, by decide, by decide, by decide, by decide, by decide, by decide⟩
  intro entries g hg
  have hne : ¬ g = some "author".toList := hg
  refine ⟨?_, ?_, ?_, ?_⟩
  · rw [order_entries, if_neg hne]
    exact perm_insertionSortLe _ entries
  · simp only [order_entries, if_neg hne, eq_self_iff_true, if_true]
    exact pairwise_insertionSortLe
      (fun e1 e2 => ymLe (year_month_key e2) (year_month_key e1))
      (fun a b => ymLe_total _ _) (fun a b c h1 h2 => ymLe_trans _ _ _ h2 h1) entries
  · rw [order_entries, if_neg hne]
    exact perm_insertionSortLe _ entries
  · simp only [order_entries, if_neg hne, if_neg (by simp : ¬ false = true)]
    exact pairwise_insertionSortLe
      (fun e1 e2 => ymLe (year_month_key e1) (year_month_key e2))
      (fun a b => ymLe_total _ _) (fun a b c h1 h2 => ymLe_trans _ _ _ h1 h2) entries

/-- Witness: `claim_C3`'s quantified part applied at `g = none`. -/
theorem claim_C3_witness :
    (order_entries [c3Y23, c3Mar] true none).Perm [c3Y23, c3Mar] ∧
    (order_entries [c3Y23, c3Mar] true none).Pairwise
      (fun e1 e2 => ymLe (year_month_key e2) (year_month_key e1) = true) ∧
    (order_entries [c3Y23, c3Mar] false none).Perm [c3Y23, c3Mar] ∧
    (order_entries [c3Y23, c3Mar] false none).Pairwise
      (fun e1 e2 => ymLe (year_month_key e1) (year_month_key e2) = true) :=
  claim_C3.1 [c3Y23, c3Mar] none (by simp)

theorem bucketGet_bucketAppend (g : List (List Char × List Entry))
    (k0 : List Char) (e : Entry) (k : List Char) :
    bucketGet (bucketAppend g k0 e) k =
      if k0 = k then bucketGet g k ++ [e] else bucketGet g k := by
  induction g with
  | nil => simp [bucketAppend, bucketGet]
  | cons p rest ih =>
    obtain ⟨k1, l⟩ := p
    simp only [bucketAppend, bucketGet]
    by_cases h1 : k1 = k0
    · subst h1
      simp only [if_pos rfl, bucketGet]
      by_cases h2 : k1 = k <;> simp [h2]
    · simp only [if_neg h1, bucketGet]
      by_cases h2 : k1 = k
      · subst h2
        have : ¬ k0 = k1 := fun h => h1 h.symm
        simp [this]
      · simp [h2, ih]

theorem bucketGet_foldAuthors (e : Entry) :
    ∀ (as : List (List Char)) (g : List (List Char × List Entry)) (k : List Char),
      bucketGet (as.foldl (fun g0 a => bucketAppend g0 a e) g) k =
        bucketGet g k ++ List.replicate (as.count k) e := by
  intro as
  induction as with
  | nil => intro g k; simp
  | cons a t ih =>
    intro g k
    simp only [List.foldl_cons, ih, bucketGet_bucketAppend, List.count_cons]
    by_cases h : a = k
    · subst h
      simp [List.replicate_succ, List.append_assoc, List.replicate_add]
    · have : ¬ (a == k) = true := by simpa using h
      simp [h, this]

theorem bucketGet_group_by_author_general :
    ∀ (entries : List Entry) (g : List (List Char × List Entry)) (k : List Char),
      bucketGet (entries.foldl addAuthorBuckets g) k =
        bucketGet g k ++ authorBucketSpec entries k := by
  intro entries
  induction entries with
  | nil => intro g k; simp [authorBucketSpec]
  | cons e t ih =>
    intro g k
    simp only [List.foldl_cons, ih, authorBucketSpec, addAuthorBuckets,
      bucketGet_foldAuthors, List.append_assoc]

/-- C5 counterexample: the entry whose two authors are joined by `" AND "`
is filed under a single bucket keyed by the whole author string — not
under each of its two authors as the claim (same splitting rule as in
ordering) predicts. -/
theorem claim_C5_cex :
    group_entries [c5CaseVariant] "author".toList =
      .flat [("A AND B".toList, [c5CaseVariant])] ∧
    (group_by_author [c5CaseVariant]).length = 1 := by
  exact ⟨rfl, rfl⟩

/-- C5 (amended): each author bucket holds exactly the entries listing
that bucket key among their authors (in input order, once per listing);
the separator is detected case-insensitively but the split itself is on
the literal `" and "`, so two authors joined by `" and "` give two
buckets, a case-variant separator such as `" AND "` leaves the whole
string as one bucket, and a string with no separator is one author. -/
theorem claim_C5 :
    (∀ (entries : List Entry) (a : List Char),
        bucketGet (group_by_author entries) a = authorBucketSpec entries a) ∧
    group_entries [c5TwoAuthors] "author".toList =
      .flat [("X One".toList, [c5TwoAuthors]), ("Y Two".toList, [c5TwoAuthors])] ∧
    group_entries [c5CaseVariant] "author".toList =
      .flat [("A AND B".toList, [c5CaseVariant])] ∧
    group_entries [c5Solo] "author".toList =
      .flat [("Solo Author".toList, [c5Solo])] := by
  refine ⟨?_, rfl, rfl, rfl⟩
  intro entries a
  have := bucketGet_group_by_author_general entries [] a
  simpa [group_by_author, bucketGet] using this

theorem bucket2Get_bucketAppend2
    (g : List (List Char × List (List Char × List Entry)))
    (y0 m0 : List Char) (e : Entry) (y m : List Char) :
    bucket2Get (bucketAppend2 g y0 m0 e) y m =
      if y0 = y ∧ m0 = m then bucket2Get g y m ++ [e] else bucket2Get g y m := by
  induction g with
  | nil =>
    simp only [bucketAppend2, bucket2Get, bucketGet]
    by_cases hy : y0 = y
    · subst hy
      by_cases hm : m0 = m <;> simp [hm]
    · simp [hy]
  | cons p rest ih =>
    obtain ⟨k1, inner⟩ := p
    simp only [bucketAppend2, bucket2Get]
    by_cases h1 : k1 = y0
    · subst h1
      simp only [if_pos rfl, bucket2Get]
      by_cases h2 : k1 = y
      · subst h2
        simp only [if_pos rfl, bucketGet_bucketAppend]
        by_cases hm : m0 = m <;> simp [hm]
      · have hc : ¬ (k1 = y ∧ m0 = m) := fun h => h2 h.1
        simp [h2, hc]
    · simp only [if_neg h1, bucket2Get]
      by_cases h2 : k1 = y
      · subst h2
        have hy : ¬ y0 = k1 := fun h => h1 h.symm
        have hc : ¬ (y0 = k1 ∧ m0 = m) := fun h => hy h.1
        simp [hc]
      · simp [h2, ih]

theorem bucket2Get_group_by_year_month_general :
    ∀ (entries : List Entry)
      (g : List (List Char × List (List Char × List Entry))) (y m : List Char),
      bucket2Get (entries.foldl (fun g0 e =>
          bucketAppend2 g0 (yearKeyOf e) (monthKeyOf e) e) g) y m =
        bucket2Get g y m ++ ymBucketSpec entries y m := by
  intro entries
  induction entries with
  | nil => intro g y m; simp [ymBucketSpec]
  | cons e t ih =>
    intro g y m
    simp only [List.foldl_cons, ih, bucket2Get_bucketAppend2, ymBucketSpec,
      List.filter_cons]
    by_cases hy : yearKeyOf e = y
    · by_cases hm : monthKeyOf e = m
      · simp [hy, hm, List.append_assoc]
      · have : ¬ (monthKeyOf e == m) = true := by simpa using hm
        simp [hy, hm, this]
    · have hb : ¬ (yearKeyOf e == y) = true := by simpa using hy
      have hc : ¬ (yearKeyOf e = y ∧ monthKeyOf e = m) := fun h => hy h.1
      simp [hc, hb]

/-- C6: under year/month grouping each entry lands in
`grouped[year][month]` with `year` the verbatim field (or "Unknown") and
`month` resolved by the digit table or three-character prefix match (or
"Unknown"); the bucket for `(y, m)` holds exactly the entries with those
keys; a month field `"3"` files under "March" and a missing month under
"Unknown". -/
theorem claim_C6 :
    (∀ (entries : List Entry) (y m : List Char),
        bucket2Get (group_by_year_month entries) y m = ymBucketSpec entries y m) ∧
    (∀ fields, getField fields "month".toList = none → resolveMonth fields = none) ∧
    monthKeyOf c6Month3 = "March".toList ∧
    yearKeyOf c6Month3 = "2024".toList ∧
    monthKeyOf c6Bare = "Unknown".toList ∧
    yearKeyOf c6Bare = "Unknown".toList ∧
    group_entries [c6Month3] "year/month".toList =
      .nested [("2024".toList, [("March".toList, [c6Month3])])] ∧
    group_entries [c6Bare] "ym".toList =
      .nested [("Unknown".toList, [("Unknown".toList, [c6Bare])])] := by
  refine ⟨?_, ?_, by decide, by decide, by decide, by decide, rfl, rfl⟩
  · intro entries y m
    have := bucket2Get_group_by_year_month_general entries [] y m
    simpa [group_by_year_month, bucket2Get] using this
  · intro fields h
    have h2 : getField fields ['m', 'o', 'n', 't', 'h'] = none := h
    simp [resolveMonth, h2, pyStrip, stripBoth, stripLeft, stripRight, pyLower]

/-- Witness: `claim_C6`'s month-absence conjunct applied to the fields of
`c6Bare`. -/
theorem claim_C6_witness : resolveMonth c6Bare.fields = none :=
  claim_C6.2.1 c6Bare.fields rfl

/-- C4 counterexample: on `"Sandra Smith"` the claim's procedure (no
separator word, so the last name is the final token `smith`) disagrees
with the code, whose unconditional `replace("and", " and ")` splits
inside the name `Sandra` and yields the key `s`; and the case variant
`"aNd"`, which the claim covers, is not treated as a separator by the
code. -/
theorem claim_C4_cex :
    get_last_name "Sandra Smith".toList = "s".toList ∧
    claimLastName "Sandra Smith".toList = "smith".toList ∧
    get_last_name "Sandra Smith".toList ≠ claimLastName "Sandra Smith".toList ∧
    get_last_name "Alice Apple aNd Bob".toList = "bob".toList ∧
    claimLastName "Alice Apple aNd Bob".toList = "apple".toList := by
  refine ⟨by decide, by decide, by decide, by decide, by decide⟩

theorem splitAtSub_decomp (pat : List Char) :
    ∀ s a b, splitAtSub pat s = some (a, b) → s = a ++ pat ++ b := by
  intro s
  induction s with
  | nil => intro a b h; simp [splitAtSub] at h
  | cons c t ih =>
    intro a b h
    by_cases hpre : pat.isPrefixOf (c :: t) = true
    · simp only [splitAtSub, hpre, if_true] at h
      obtain ⟨u, hu⟩ := List.isPrefixOf_iff_prefix.mp hpre
      cases h
      simp only [List.nil_append]
      rw [← hu, List.drop_left]
    · simp only [splitAtSub, hpre, if_false, Bool.false_eq_true] at h
      cases hsub : splitAtSub pat t with
      | none => rw [hsub] at h; cases h
      | some p =>
        obtain ⟨a0, b0⟩ := p
        rw [hsub] at h
        simp only [Option.some.injEq, Prod.mk.injEq] at h
        obtain ⟨ha, hb⟩ := h
        rw [← ha, ← hb]
        simp only [List.cons_append]
        rw [← ih a0 b0 hsub]

theorem pyReplaceFuel_none (pat repl : List Char) :
    ∀ (fuel : Nat) (s : List Char), splitAtSub pat s = none →
      pyReplaceFuel fuel s pat repl = s := by
  intro fuel
  induction fuel with
  | zero => intro s _; rfl
  | succ n ih =>
    intro s h
    cases s with
    | nil => rfl
    | cons c t =>
      by_cases hpre : pat.isPrefixOf (c :: t) = true
      · simp [splitAtSub, hpre] at h
      · have hsub : splitAtSub pat t = none := by
          cases hsub : splitAtSub pat t with
          | none => rfl
          | some p =>
            obtain ⟨a0, b0⟩ := p
            simp [splitAtSub, hpre, hsub] at h
        simp only [pyReplaceFuel, hpre, Bool.false_eq_true, if_false]
        rw [ih t hsub]

theorem pyReplaceFuel_step (pat repl : List Char) :
    ∀ (a : List Char) (s b : List Char) (fuel : Nat),
      splitAtSub pat s = some (a, b) → a.length + 1 ≤ fuel →
      pyReplaceFuel fuel s pat repl =
        a ++ repl ++ pyReplaceFuel (fuel - (a.length + 1)) b pat repl := by
  intro a
  induction a with
  | nil =>
    intro s b fuel h hf
    cases s with
    | nil => simp [splitAtSub] at h
    | cons c t =>
      obtain ⟨n, rfl⟩ : ∃ n, fuel = n + 1 := ⟨fuel - 1, by omega⟩
      by_cases hpre : pat.isPrefixOf (c :: t) = true
      · simp only [splitAtSub, hpre, if_true] at h
        cases h
        simp only [pyReplaceFuel, hpre, if_true]
        simp
      · simp only [splitAtSub, hpre, Bool.false_eq_true, if_false] at h
        cases hsub : splitAtSub pat t with
        | none => rw [hsub] at h; cases h
        | some p => obtain ⟨a0, b0⟩ := p; rw [hsub] at h; cases h
  | cons x a0 ih =>
    intro s b fuel h hf
    cases s with
    | nil => simp [splitAtSub] at h
    | cons c t =>
      obtain ⟨n, rfl⟩ : ∃ n, fuel = n + 1 := ⟨fuel - 1, by omega⟩
      by_cases hpre : pat.isPrefixOf (c :: t) = true
      · simp only [splitAtSub, hpre, if_true] at h
        cases h
      · simp only [splitAtSub, hpre, Bool.false_eq_true, if_false] at h
        cases hsub : splitAtSub pat t with
        | none => rw [hsub] at h; cases h
        | some p =>
          obtain ⟨a1, b1⟩ := p
          rw [hsub] at h
          simp only [Option.some.injEq, Prod.mk.injEq, List.cons.injEq] at h
          obtain ⟨⟨hcx, ha⟩, hb⟩ := h
          rw [ha, hb] at hsub
          simp only [pyReplaceFuel, hpre, Bool.false_eq_true, if_false]
          have hfa : a0.length + 1 ≤ n := by
            simp only [List.length_cons] at hf
            omega
          rw [ih t b n hsub hfa]
          rw [← hcx]
          simp only [List.cons_append, List.append_assoc, List.length_cons]
          have heq : n + 1 - (a0.length + 1 + 1) = n - (a0.length + 1) := by omega
          rw [heq]

theorem pySplitFuel_none (pat : List Char) (s : List Char)
    (h : splitAtSub pat s = none) : ∀ fuel, pySplitFuel fuel s pat = [s] := by
  intro fuel
  cases fuel with
  | zero => rfl
  | succ n => simp [pySplitFuel, h]

theorem pySplitFuel_step (pat s a b : List Char)
    (h : splitAtSub pat s = some (a, b)) :
    ∀ fuel, pySplitFuel (fuel + 1) s pat = a :: pySplitFuel fuel b pat := by
  intro fuel
  simp [pySplitFuel, h]

theorem pyReplaceFuel_irrel (pat repl : List Char) (hpat : pat ≠ []) :
    ∀ (n : Nat) (s : List Char) (f1 f2 : Nat), s.length ≤ n →
      s.length < f1 → s.length < f2 →
      pyReplaceFuel f1 s pat repl = pyReplaceFuel f2 s pat repl := by
  intro n
  induction n with
  | zero =>
    intro s f1 f2 hn h1 h2
    have : s = [] := List.length_eq_zero.mp (Nat.le_zero.mp hn)
    subst this
    obtain ⟨m1, rfl⟩ : ∃ m, f1 = m + 1 := ⟨f1 - 1, by omega⟩
    obtain ⟨m2, rfl⟩ : ∃ m, f2 = m + 1 := ⟨f2 - 1, by omega⟩
    rfl
  | succ n ih =>
    intro s f1 f2 hn h1 h2
    cases hsub : splitAtSub pat s with
    | none => rw [pyReplaceFuel_none pat repl f1 s hsub, pyReplaceFuel_none pat repl f2 s hsub]
    | some p =>
      obtain ⟨a, b⟩ := p
      have hdec := splitAtSub_decomp pat s a b hsub
      have hlen : s.length = a.length + pat.length + b.length := by
        subst hdec; simp; omega
      have hpl : 1 ≤ pat.length := by
        cases pat with
        | nil => exact absurd rfl hpat
        | cons _ _ => simp
      rw [pyReplaceFuel_step pat repl a s b f1 hsub (by omega),
          pyReplaceFuel_step pat repl a s b f2 hsub (by omega)]
      congr 1
      exact ih b _ _ (by omega) (by omega) (by omega)

theorem pySplitFuel_irrel (pat : List Char) (hpat : pat ≠ []) :
    ∀ (n : Nat) (s : List Char) (f1 f2 : Nat), s.length ≤ n →
      s.length < f1 → s.length < f2 →
      pySplitFuel f1 s pat = pySplitFuel f2 s pat := by
  intro n
  induction n with
  | zero =>
    intro s f1 f2 hn h1 h2
    have : s = [] := List.length_eq_zero.mp (Nat.le_zero.mp hn)
    subst this
    cases hsub : splitAtSub pat ([] : List Char) with
    | none =>
      rw [pySplitFuel_none pat [] hsub f1, pySplitFuel_none pat [] hsub f2]
    | some p => simp [splitAtSub] at hsub
  | succ n ih =>
    intro s f1 f2 hn h1 h2
    cases hsub : splitAtSub pat s with
    | none => rw [pySplitFuel_none pat s hsub f1, pySplitFuel_none pat s hsub f2]
    | some p =>
      obtain ⟨a, b⟩ := p
      have hdec := splitAtSub_decomp pat s a b hsub
      have hlen : s.length = a.length + pat.length + b.length := by
        subst hdec; simp; omega
      have hpl : 1 ≤ pat.length := by
        cases pat with
        | nil => exact absurd rfl hpat
        | cons _ _ => simp
      obtain ⟨m1, rfl⟩ : ∃ m, f1 = m + 1 := ⟨f1 - 1, by omega⟩
      obtain ⟨m2, rfl⟩ : ∃ m, f2 = m + 1 := ⟨f2 - 1, by omega⟩
      rw [pySplitFuel_step pat s a b hsub m1, pySplitFuel_step pat s a b hsub m2]
      congr 1
      exact ih b m1 m2 (by omega) (by omega) (by omega)

theorem intercalate_cons_of_ne_nil (sep a : List Char) (l : List (List Char))
    (h : l ≠ []) :
    List.intercalate sep (a :: l) = a ++ sep ++ List.intercalate sep l := by
  cases l with
  | nil => exact absurd rfl h
  | cons b t =>
    simp [List.intercalate, List.intersperse, List.append_assoc]

theorem pySplitFuel_ne_nil (pat s : List Char) (fuel : Nat) :
    pySplitFuel fuel s pat ≠ [] := by
  cases fuel with
  | zero => simp [pySplitFuel]
  | succ n =>
    simp only [pySplitFuel]
    cases splitAtSub pat s with
    | none => simp
    | some p => obtain ⟨a, b⟩ := p; simp

theorem pyReplace_eq_replaceBySplit (pat repl : List Char) (hpat : pat ≠ []) :
    ∀ s, pyReplace s pat repl = replaceBySplit s pat repl := by
  have main : ∀ (n : Nat) (s : List Char), s.length ≤ n →
      pyReplace s pat repl = replaceBySplit s pat repl := by
    intro n
    induction n with
    | zero =>
      intro s hn
      have : s = [] := List.length_eq_zero.mp (Nat.le_zero.mp hn)
      subst this
      rfl
    | succ n ih =>
      intro s hn
      cases hsub : splitAtSub pat s with
      | none =>
        rw [pyReplace, pyReplaceFuel_none pat repl _ s hsub]
        rw [replaceBySplit, pySplit, pySplitFuel_none pat s hsub]
        simp [List.intercalate, List.intersperse]
      | some p =>
        obtain ⟨a, b⟩ := p
        have hdec := splitAtSub_decomp pat s a b hsub
        have hlen : s.length = a.length + pat.length + b.length := by
          subst hdec; simp; omega
        have hpl : 1 ≤ pat.length := by
          cases pat with
          | nil => exact absurd rfl hpat
          | cons _ _ => simp
        rw [pyReplace, pyReplaceFuel_step pat repl a s b _ hsub (by omega)]
        have hb1 : pyReplaceFuel (s.length + 1 - (a.length + 1)) b pat repl =
            pyReplace b pat repl := by
          rw [pyReplace]
          exact pyReplaceFuel_irrel pat repl hpat b.length b _ _ (le_refl _)
            (by omega) (by omega)
        rw [hb1, ih b (by omega)]
        have hb2 : pySplitFuel s.length b pat = pySplit b pat := by
          rw [pySplit]
          exact pySplitFuel_irrel pat hpat b.length b _ _ (le_refl _)
            (by omega) (by omega)
        have hsplit : pySplit s pat = a :: pySplit b pat := by
          rw [pySplit, pySplitFuel_step pat s a b hsub s.length, hb2]
        have hnn : pySplit b pat ≠ [] := by
          rw [pySplit]
          exact pySplitFuel_ne_nil pat b _
        conv_rhs => rw [replaceBySplit]
        rw [hsplit, intercalate_cons_of_ne_nil repl a _ hnn]
        simp [replaceBySplit]
  intro s
  exact main s.length s (le_refl _)

/-- C4 (amended): for every author string the sort key computed by
`get_last_name` equals the amended procedure's result, and the author
sort key of an entry is `get_last_name` of its author field (empty when
missing). -/
theorem claim_C4 :
    (∀ s, get_last_name s = amendedLastName s) ∧
    (∀ e : Entry, author_key e =
      get_last_name ((getField e.fields "author".toList).getD [])) := by
  constructor
  · intro s
    have h1 := pyReplace_eq_replaceBySplit " AND ".toList " and ".toList (by decide)
    have h2 := pyReplace_eq_replaceBySplit " And ".toList " and ".toList (by decide)
    have h3 := pyReplace_eq_replaceBySplit " AND".toList " and ".toList (by decide)
    have h4 := pyReplace_eq_replaceBySplit "and".toList " and ".toList (by decide)
    rw [get_last_name, amendedLastName, amendedNormalize, h1, h2, h3, h4]
  · intro e
    rfl

/-! ### Character-class and scanning lemmas -/

theorem length_dropWhile_le (p : Char → Bool) :
    ∀ l : List Char, (l.dropWhile p).length ≤ l.length := by
  intro l
  induction l with
  | nil => simp
  | cons c t ih =>
    rw [List.dropWhile_cons]
    split
    · exact le_trans ih (by simp)
    · simp

theorem takeWhile_all (p : Char → Bool) :
    ∀ l : List Char, (∀ c ∈ l, p c = true) → l.takeWhile p = l := by
  intro l
  induction l with
  | nil => intro _; rfl
  | cons c t ih =>
    intro h
    rw [List.takeWhile_cons, if_pos (h c (by simp))]
    rw [ih (fun c hc => h c (by simp [hc]))]

theorem dropWhile_all (p : Char → Bool) :
    ∀ l : List Char, (∀ c ∈ l, p c = true) → l.dropWhile p = [] := by
  intro l
  induction l with
  | nil => intro _; rfl
  | cons c t ih =>
    intro h
    rw [List.dropWhile_cons, if_pos (h c (by simp))]
    exact ih (fun c hc => h c (by simp [hc]))

theorem takeWhile_append_all (p : Char → Bool) (a b : List Char)
    (h : ∀ c ∈ a, p c = true) :
    (a ++ b).takeWhile p = a ++ b.takeWhile p := by
  rw [List.takeWhile_append, if_pos (by rw [takeWhile_all p a h])]

theorem dropWhile_append_all (p : Char → Bool) (a b : List Char)
    (h : ∀ c ∈ a, p c = true) :
    (a ++ b).dropWhile p = b.dropWhile p := by
  rw [List.dropWhile_append, if_pos (by rw [dropWhile_all p a h]; rfl)]

theorem takeWhile_cons_neg (p : Char → Bool) (c : Char) (t : List Char)
    (h : p c = false) : (c :: t).takeWhile p = [] := by
  rw [List.takeWhile_cons, h]
  simp

theorem dropWhile_cons_neg (p : Char → Bool) (c : Char) (t : List Char)
    (h : p c = false) : (c :: t).dropWhile p = c :: t := by
  rw [List.dropWhile_cons, h]
  simp

theorem pyIsSpace_cases (c : Char) (h : pyIsSpace c = true) :
    c = ' ' ∨ c = '\t' ∨ c = '\n' ∨ c = '\r' ∨ c = '\x0b' ∨ c = '\x0c' := by
  simp only [pyIsSpace, Bool.or_eq_true, decide_eq_true_eq] at h
  tauto

theorem wordChar_not_space (c : Char) (h : isWordChar c = true) :
    pyIsSpace c = false := by
  cases hs : pyIsSpace c
  · rfl
  · rcases pyIsSpace_cases c hs with rfl | rfl | rfl | rfl | rfl | rfl <;>
      exact absurd h (by decide)

/-! ### Placeholder substitution (claim C7) -/

theorem matchPlaceholder_eq (name post : List Char) (h1 : name ≠ [])
    (h2 : ∀ c ∈ name, isWordChar c = true) :
    matchPlaceholder ('\x7b' :: '\x7b' :: (name ++ '\x7d' :: '\x7d' :: post)) =
      some (name, post) := by
  obtain ⟨n0, nt, rfl⟩ : ∃ n0 nt, name = n0 :: nt := by
    cases name with
    | nil => exact absurd rfl h1
    | cons n0 nt => exact ⟨n0, nt, rfl⟩
  have hn0 : pyIsSpace n0 = false := wordChar_not_space n0 (h2 n0 (by simp))
  simp only [matchPlaceholder]
  rw [if_pos (by simp)]
  rw [List.cons_append, dropWhile_cons_neg _ _ _ hn0, ← List.cons_append]
  rw [takeWhile_append_all isWordChar (n0 :: nt) _ h2,
      takeWhile_cons_neg isWordChar '\x7d' _ (by decide)]
  rw [dropWhile_append_all isWordChar (n0 :: nt) _ h2,
      dropWhile_cons_neg isWordChar '\x7d' _ (by decide),
      dropWhile_cons_neg pyIsSpace '\x7d' _ (by decide)]
  simp

theorem matchPlaceholder_bound :
    ∀ (s nm r : List Char), matchPlaceholder s = some (nm, r) →
      r.length + 4 ≤ s.length := by
  intro s nm r h
  cases s with
  | nil => simp [matchPlaceholder] at h
  | cons c1 s1 =>
    cases s1 with
    | nil => simp [matchPlaceholder] at h
    | cons c2 t =>
      simp only [matchPlaceholder] at h
      split at h
      · split at h
        · cases h
        · split at h
          · rename_i heq
            split at h
            · cases h
              have hlen : r.length + 2 =
                  (((t.dropWhile pyIsSpace).dropWhile isWordChar).dropWhile
                    pyIsSpace).length := by
                rw [heq]
                rename_i d1 d2 _ _
                simp
              have l1 := length_dropWhile_le pyIsSpace
                ((t.dropWhile pyIsSpace).dropWhile isWordChar)
              have l2 := length_dropWhile_le isWordChar (t.dropWhile pyIsSpace)
              have l3 := length_dropWhile_le pyIsSpace t
              simp only [List.length_cons]
              omega
            · cases h
          · cases h
      · cases h

theorem substPlaceholders_irrel (fields : List (List Char × List Char)) :
    ∀ (n : Nat) (s : List Char) (f1 f2 : Nat), s.length ≤ n →
      s.length < f1 → s.length < f2 →
      substPlaceholders fields f1 s = substPlaceholders fields f2 s := by
  intro n
  induction n with
  | zero =>
    intro s f1 f2 hn _ _
    have : s = [] := List.length_eq_zero.mp (Nat.le_zero.mp hn)
    subst this
    have he : ∀ f, substPlaceholders fields f [] = [] := by
      intro f; cases f <;> rfl
    rw [he, he]
  | succ n ih =>
    intro s f1 f2 hn h1 h2
    cases s with
    | nil =>
      have he : ∀ f, substPlaceholders fields f [] = [] := by
        intro f; cases f <;> rfl
      rw [he, he]
    | cons c t =>
      obtain ⟨m1, rfl⟩ : ∃ m, f1 = m + 1 := ⟨f1 - 1, by omega⟩
      obtain ⟨m2, rfl⟩ : ∃ m, f2 = m + 1 := ⟨f2 - 1, by omega⟩
      simp only [substPlaceholders]
      cases hm : matchPlaceholder (c :: t) with
      | none =>
        simp only [hm]
        simp only [List.length_cons] at h1 h2 hn
        rw [ih t m1 m2 (by omega) (by omega) (by omega)]
      | some p =>
        obtain ⟨nm, r⟩ := p
        simp only [hm]
        have hb := matchPlaceholder_bound (c :: t) nm r hm
        simp only [List.length_cons] at h1 h2 hn hb
        rw [ih r m1 m2 (by omega) (by omega) (by omega)]

/-- Substituting a template that begins with a placeholder: the field
value (empty when absent) followed by the substitution of the rest. -/
theorem substPlaceholders_cons_match (fields : List (List Char × List Char))
    (fuel : Nat) (c : Char) (t : List Char) :
    substPlaceholders fields (fuel + 1) (c :: t) =
      match matchPlaceholder (c :: t) with
      | some (nm, r) =>
        (getField fields nm).getD [] ++ substPlaceholders fields fuel r
      | none => c :: substPlaceholders fields fuel t := rfl

theorem render_substitute_placeholder (fields : List (List Char × List Char))
    (name post : List Char) (h1 : name ≠ [])
    (h2 : ∀ c ∈ name, isWordChar c = true) :
    render_substitute fields
        ('\x7b' :: '\x7b' :: (name ++ '\x7d' :: '\x7d' :: post)) =
      (getField fields name).getD [] ++ render_substitute fields post := by
  have hm := matchPlaceholder_eq name post h1 h2
  rw [render_substitute, substPlaceholders_cons_match]
  simp only [hm]
  congr 1
  rw [render_substitute]
  have hlen : ('\x7b' :: '\x7b' :: (name ++ '\x7d' :: '\x7d' :: post)).length =
      name.length + post.length + 4 := by simp; omega
  rw [hlen]
  exact substPlaceholders_irrel fields (name.length + post.length + 4) post _ _
    (by omega) (by omega) (by omega)

/-- C7: rendering substitutes every `{{ name }}` placeholder with the
entry's field value (empty when absent) and then applies the cleanup
rules in source order; the example template `{{author}}. ({{year}}).`
substitutes to `A. B.. (2020).` and cleans to `A. B. (2020).`. -/
theorem claim_C7 :
    (∀ (fields : List (List Char × List Char)) (name post : List Char),
        name ≠ [] → (∀ c ∈ name, isWordChar c = true) →
        render_substitute fields
            ('\x7b' :: '\x7b' :: (name ++ '\x7d' :: '\x7d' :: post)) =
          (getField fields name).getD [] ++ render_substitute fields post) ∧
    render_substitute c7Fields c7Template = "A. B.. (2020).".toList ∧
    gen_trim "A. B.. (2020).".toList = "A. B. (2020).".toList ∧
    render_substitute c7Fields "\x7b\x7b title \x7d\x7d".toList = [] ∧
    gen_render c7Fields "<p>\n".toList c7Template "</p>".toList =
      "<p>\nA. B. (2020).</p>".toList := by
  exact ⟨render_substitute_placeholder, by decide, by decide, by decide, by decide⟩

/-- Witness: the placeholder conjunct of `claim_C7` at the concrete
placeholder `{{year}}`. -/
theorem claim_C7_witness :
    render_substitute c7Fields
        ('\x7b' :: '\x7b' :: ("year".toList ++ '\x7d' :: '\x7d' :: [])) =
      (getField c7Fields "year".toList).getD [] ++ render_substitute c7Fields [] :=
  claim_C7.1 c7Fields "year".toList [] (by decide) (by decide)

/-! ### Symbolic parsing lemmas (claim C1) -/

theorem normLineJoins_no_nl :
    ∀ (s acc : List Char), (∀ c ∈ s, c ≠ '\n') →
      normLineJoins acc false s = acc.reverse ++ s := by
  intro s
  induction s with
  | nil => intro acc _; simp [normLineJoins, flushRun]
  | cons c t ih =>
    intro acc h
    have hc : (c == '\n') = false := by
      simpa using h c (by simp)
    simp only [normLineJoins, hc, Bool.or_false]
    split
    · rw [ih (c :: acc) (fun x hx => h x (by simp [hx]))]
      simp
    · rw [ih [] (fun x hx => h x (by simp [hx]))]
      simp [flushRun]

theorem normalizeLineJoins_id (s : List Char) (h : ∀ c ∈ s, c ≠ '\n') :
    normalizeLineJoins s = s := by
  simpa using normLineJoins_no_nl s [] h

theorem splitAtChar_first (c : Char) :
    ∀ (a b : List Char), c ∉ a → splitAtChar c (a ++ c :: b) = some (a, b) := by
  intro a
  induction a with
  | nil => intro b _; simp [splitAtChar]
  | cons x t ih =>
    intro b h
    have hx : ¬ x = c := fun hc => h (by simp [hc])
    have ht := ih b (fun hc => h (by simp [hc]))
    simp only [List.cons_append, splitAtChar, if_neg hx, List.append_eq, ht]

theorem extract_brace_block_flat :
    ∀ (inner rest : List Char),
      (∀ ch ∈ inner, ch ≠ '\x7b' ∧ ch ≠ '\x7d') →
      extract_brace_block 1 (inner ++ '\x7d' :: rest) = some (inner, rest) := by
  intro inner
  induction inner with
  | nil => intro rest _; simp [extract_brace_block]
  | cons ch t ih =>
    intro rest h
    obtain ⟨h1, h2⟩ := h ch (by simp)
    have ht := ih rest (fun x hx => h x (by simp [hx]))
    simp only [List.cons_append, extract_brace_block, if_neg h1, if_neg h2,
      List.append_eq, ht]

theorem dropWhile_all_neg (p : Char → Bool) :
    ∀ l : List Char, (∀ c ∈ l, p c = false) → l.dropWhile p = l := by
  intro l h
  cases l with
  | nil => rfl
  | cons c t => exact dropWhile_cons_neg p c t (h c (by simp))

theorem stripRight_append_all (p : Char → Bool) (a b : List Char)
    (hb : ∀ c ∈ b, p c = true) : stripRight p (a ++ b) = stripRight p a := by
  unfold stripRight
  rw [List.reverse_append, dropWhile_append_all p b.reverse a.reverse
    (fun c hc => hb c (List.mem_reverse.mp hc))]

theorem stripRight_all_neg (p : Char → Bool) (a : List Char)
    (ha : ∀ c ∈ a, p c = false) : stripRight p a = a := by
  unfold stripRight
  rw [dropWhile_all_neg p a.reverse (fun c hc => ha c (List.mem_reverse.mp hc))]
  simp

theorem stripRight_append_last_neg (p : Char → Bool) (a : List Char) (x : Char)
    (hx : p x = false) : stripRight p (a ++ [x]) = a ++ [x] := by
  unfold stripRight
  rw [List.reverse_append]
  simp only [List.reverse_cons, List.reverse_nil, List.nil_append,
    List.singleton_append]
  rw [dropWhile_cons_neg p x a.reverse hx]
  simp

theorem pyStrip_all_nonspace (a : List Char)
    (ha : ∀ c ∈ a, pyIsSpace c = false) : pyStrip a = a := by
  unfold pyStrip stripBoth stripLeft
  rw [dropWhile_all_neg pyIsSpace a ha, stripRight_all_neg pyIsSpace a ha]

/-- Every character of a bare token is a word character. -/
theorem bareToken_word (N : List Char) (h : isBareToken N = true) :
    ∀ c ∈ N, isWordChar c = true := by
  cases N with
  | nil => simp [isBareToken] at h
  | cons c t =>
    simp only [isBareToken, Bool.and_eq_true] at h
    intro x hx
    rcases List.mem_cons.mp hx with rfl | hxt
    · rcases Bool.or_eq_true_iff.mp h.1 with h1 | h1
      · simp [isWordChar, Char.isAlphanum, h1]
      · simp [isWordChar, h1]
    · exact List.all_eq_true.mp h.2 x hxt

theorem bareToken_ne_nil (N : List Char) (h : isBareToken N = true) : N ≠ [] := by
  cases N with
  | nil => simp [isBareToken] at h
  | cons _ _ => simp

/-- Word characters are none of the delimiter characters. -/
theorem wordChar_facts (c : Char) (h : isWordChar c = true) :
    c ≠ '=' ∧ c ≠ ',' ∧ c ≠ '\x7b' ∧ c ≠ '\x7d' ∧ c ≠ '"' ∧ c ≠ '@' ∧
      c ≠ '\n' ∧ c ≠ ' ' := by
  refine ⟨?_, ?_, ?_, ?_, ?_, ?_, ?_, ?_⟩ <;>
    · intro hc
      subst hc
      exact absurd h (by decide)

theorem wordChar_bareValue (c : Char) (h : isWordChar c = true) :
    isBareValueChar c = true := by
  obtain ⟨_, h2, h3, h4, _, _, _, _⟩ := wordChar_facts c h
  simp [isBareValueChar, h2, h3, h4]

/-- `parse_key_value` on a well-formed `@string` body `N = "V"`. -/
theorem parse_key_value_eq (N V : List Char) (hN : isBareToken N = true)
    (hV : ∀ c ∈ V, c ≠ '"' ∧ c ≠ '\x7b' ∧ c ≠ '\x7d') (hVne : V ≠ []) :
    parse_key_value (N ++ " = \"".toList ++ V ++ ['"']) = some (N, V) := by
  have hword := bareToken_word N hN
  have hNns : ∀ c ∈ N, pyIsSpace c = false :=
    fun c hc => wordChar_not_space c (hword c hc)
  obtain ⟨n0, nt, rfl⟩ : ∃ n0 nt, N = n0 :: nt := by
    cases N with
    | nil => exact absurd rfl (bareToken_ne_nil [] hN)
    | cons n0 nt => exact ⟨n0, nt, rfl⟩
  obtain ⟨v0, vt, rfl⟩ : ∃ v0 vt, V = v0 :: vt := by
    cases V with
    | nil => exact absurd rfl hVne
    | cons v0 vt => exact ⟨v0, vt, rfl⟩
  have heq : (n0 :: nt) ++ " = \"".toList ++ (v0 :: vt) ++ ['"'] =
      ((n0 :: nt) ++ [' ']) ++ '=' :: (' ' :: '"' :: (v0 :: vt) ++ ['"']) := by
    simp
  rw [parse_key_value, heq, splitAtChar_first '='
    ((n0 :: nt) ++ [' '])
    (' ' :: '"' :: (v0 :: vt) ++ ['"'])
    (by
      intro hc
      rcases List.mem_append.mp hc with hc1 | hc2
      · exact (wordChar_facts '=' (hword '=' hc1)).1 rfl
      · simp at hc2)]
  dsimp only
  have hl : pyStrip ((n0 :: nt) ++ [' ']) = n0 :: nt := by
    unfold pyStrip stripBoth stripLeft
    rw [List.cons_append, dropWhile_cons_neg pyIsSpace n0 _ (hNns n0 (by simp)),
      ← List.cons_append]
    rw [stripRight_append_all pyIsSpace (n0 :: nt) [' ']
      (by intro c hc; simp at hc; subst hc; decide)]
    exact stripRight_all_neg pyIsSpace _ hNns
  have hr : pyStrip (' ' :: '"' :: ((v0 :: vt) ++ ['"'])) =
      '"' :: ((v0 :: vt) ++ ['"']) := by
    unfold pyStrip stripBoth stripLeft
    rw [List.dropWhile_cons, if_pos (by decide)]
    rw [dropWhile_cons_neg pyIsSpace '"' _ (by decide)]
    rw [show ('"' :: ((v0 :: vt) ++ ['"'])) = ('"' :: (v0 :: vt)) ++ ['"'] by simp]
    rw [stripRight_append_last_neg pyIsSpace _ '"' (by decide)]
  have hcomma : stripBoth (fun c => c = ',')
      (('"' :: (v0 :: vt)) ++ ['"']) = ('"' :: (v0 :: vt)) ++ ['"'] := by
    unfold stripBoth stripLeft
    rw [show (('"' :: (v0 :: vt)) ++ ['"']) = '"' :: ((v0 :: vt) ++ ['"']) by simp]
    rw [dropWhile_cons_neg _ '"' _ (by simp)]
    rw [show ('"' :: ((v0 :: vt) ++ ['"'])) = ('"' :: (v0 :: vt)) ++ ['"'] by simp]
    rw [stripRight_append_last_neg _ _ '"' (by simp)]
  have hVn : ∀ c ∈ v0 :: vt, (['"', '\x7b', '\x7d'].contains c) = false := by
    intro c hc
    obtain ⟨h1, h2, h3⟩ := hV c hc
    simp [List.contains, h1, h2, h3]
  have hset : pyStripSet ['"', '\x7b', '\x7d'] (('"' :: (v0 :: vt)) ++ ['"']) =
      v0 :: vt := by
    unfold pyStripSet stripBoth stripLeft
    rw [show (('"' :: (v0 :: vt)) ++ ['"']) = '"' :: ((v0 :: vt) ++ ['"']) by simp]
    rw [List.dropWhile_cons, if_pos (by decide)]
    rw [List.cons_append, List.dropWhile_cons,
      if_neg (by rw [hVn v0 (List.mem_cons_self v0 vt)]; simp)]
    rw [show (v0 :: (vt ++ ['"'])) = (v0 :: vt) ++ ['"'] by simp]
    rw [stripRight_append_all _ (v0 :: vt) ['"'] (by intro c hc; simp at hc; subst hc; decide)]
    exact stripRight_all_neg _ _ hVn
  simp only [List.cons_append] at hl hr hcomma hset ⊢
  rw [hl, hr, hcomma, hset]

theorem parse_fields_nil (f : Nat) (e : Bool)
    (tab fields : List (List Char × List Char)) :
    parse_fields f e tab fields [] = fields := by
  cases f <;> rfl

theorem parse_blocks_nil_input (f : Nat) (e : Bool) (st : BibDocument) :
    parse_blocks f e st [] = .ok st := by
  cases f <;> rfl

/-- A word character is not one of the stripped delimiters. -/
theorem wordChar_not_stripSet (c : Char) (h : isWordChar c = true) :
    (['"', '\x7b', '\x7d', ' '].contains c) = false := by
  obtain ⟨_, _, h3, h4, h5, _, _, h8⟩ := wordChar_facts c h
  simp [List.contains, h3, h4, h5, h8]

theorem postValue_word (N : List Char) (hword : ∀ c ∈ N, isWordChar c = true) :
    postValue N = N := by
  unfold postValue
  rw [pyStrip_all_nonspace N (fun c hc => wordChar_not_space c (hword c hc))]
  unfold pyStripSet stripBoth stripLeft
  have hset : ∀ c ∈ N, (['"', '\x7b', '\x7d', ' '].contains c) = false :=
    fun c hc => wordChar_not_stripSet c (hword c hc)
  rw [dropWhile_all_neg _ N hset, stripRight_all_neg _ N hset]

theorem matchFieldValue_bare (N : List Char)
    (hword : ∀ c ∈ N, isWordChar c = true) (hne : N ≠ []) :
    matchFieldValue (N ++ [',']) = some (N, [',']) := by
  obtain ⟨n0, nt, rfl⟩ : ∃ n0 nt, N = n0 :: nt := by
    cases N with
    | nil => exact absurd rfl hne
    | cons n0 nt => exact ⟨n0, nt, rfl⟩
  have h0 := wordChar_facts n0 (hword n0 (by simp))
  have hbv : ∀ c ∈ n0 :: nt, isBareValueChar c = true :=
    fun c hc => wordChar_bareValue c (hword c hc)
  simp only [List.cons_append, matchFieldValue]
  rw [if_neg h0.2.2.1, if_neg h0.2.2.2.2.1]
  rw [show (n0 :: (nt ++ [','])) = (n0 :: nt) ++ [','] by simp]
  rw [takeWhile_append_all _ _ _ hbv, takeWhile_cons_neg _ ',' _ (by decide)]
  rw [dropWhile_append_all _ _ _ hbv, dropWhile_cons_neg _ ',' _ (by decide)]
  simp

/-- The field regex on the concrete field text ` note = X`:
only the value scan depends on `X`. -/
theorem matchField_concrete (X : List Char) :
    matchField (' ' :: 'n' :: 'o' :: 't' :: 'e' :: ' ' :: '=' :: ' ' :: X) =
      (match matchFieldValue (X.dropWhile pyIsSpace) with
       | none => none
       | some (v, r) =>
         some ("note".toList, v,
           match r.dropWhile pyIsSpace with
           | c0 :: t => if c0 = ',' then t else c0 :: t
           | [] => [])) := rfl

theorem matchField_note (N : List Char) (hN : isBareToken N = true) :
    matchField (' ' :: 'n' :: 'o' :: 't' :: 'e' :: ' ' :: '=' :: ' ' ::
        (N ++ [','])) = some ("note".toList, N, []) := by
  have hword := bareToken_word N hN
  obtain ⟨n0, nt, rfl⟩ : ∃ n0 nt, N = n0 :: nt := by
    cases N with
    | nil => exact absurd rfl (bareToken_ne_nil [] hN)
    | cons n0 nt => exact ⟨n0, nt, rfl⟩
  rw [matchField_concrete]
  have e1 : ((n0 :: nt) ++ [',']).dropWhile pyIsSpace = (n0 :: nt) ++ [','] := by
    rw [List.cons_append,
      dropWhile_cons_neg _ _ _ (wordChar_not_space n0 (hword n0 (by simp)))]
  rw [e1, matchFieldValue_bare (n0 :: nt) hword (by simp)]
  rfl

/-- `parse_entry` on the concrete skeleton `k,` + field text. -/
theorem parse_entry_concrete (expand : Bool)
    (tab : List (List Char × List Char)) (X : List Char) :
    parse_entry expand tab "misc".toList ('k' :: ',' :: X) =
      some { type := "misc".toList, key := ['k'],
             fields := parse_fields (X.length + 1) expand tab [] X } := rfl

theorem parse_entry_note (expand : Bool) (tab : List (List Char × List Char))
    (N : List Char) (hN : isBareToken N = true) :
    parse_entry expand tab "misc".toList
        ('k' :: ',' :: (' ' :: 'n' :: 'o' :: 't' :: 'e' :: ' ' :: '=' :: ' ' ::
          (N ++ [',']))) =
      some { type := "misc".toList, key := ['k'],
             fields := [("note".toList,
               if expand then (lookupStringTable tab N).getD N else N)] } := by
  rw [parse_entry_concrete]
  congr 2
  have hstep := matchField_note N hN
  simp only [parse_fields, List.isEmpty_cons, hstep]
  rw [postValue_word N (bareToken_word N hN), hN]
  simp only [Bool.and_true, parse_fields_nil, updateField]
  cases expand <;> rfl

/-- Scanning one well-formed `@string{N = "V"}` block: the macro is
appended to the table and scanning continues after the block. -/
theorem parse_blocks_string_step (f : Nat) (e : Bool) (st : BibDocument)
    (pre N V rest text : List Char) (hpre : '@' ∉ pre)
    (hN : isBareToken N = true)
    (hV : ∀ c ∈ V, c ≠ '"' ∧ c ≠ '\x7b' ∧ c ≠ '\x7d') (hVne : V ≠ [])
    (htext : text = pre ++ '@' :: ("string".toList ++ '\x7b' ::
      ((N ++ " = \"".toList ++ V ++ ['"']) ++ '\x7d' :: rest))) :
    parse_blocks (f + 1) e st text =
      parse_blocks f e { st with strings := st.strings ++ [(N, V)] } rest := by
  have hinner : ∀ ch ∈ (N ++ " = \"".toList ++ V ++ ['"']),
      ch ≠ '\x7b' ∧ ch ≠ '\x7d' := by
    intro ch hc
    simp only [List.append_assoc, List.mem_append] at hc
    rcases hc with h1 | h1 | h1 | h1
    · have hf := wordChar_facts ch (bareToken_word N hN ch h1)
      exact ⟨hf.2.2.1, hf.2.2.2.1⟩
    · have hall : ∀ c ∈ " = \"".toList, c ≠ '\x7b' ∧ c ≠ '\x7d' := by decide
      exact hall ch h1
    · exact ⟨(hV ch h1).2.1, (hV ch h1).2.2⟩
    · simp only [List.mem_singleton] at h1
      subst h1
      exact ⟨by decide, by decide⟩
  rw [htext]
  simp only [parse_blocks]
  rw [splitAtChar_first '@' pre _ hpre]
  dsimp only
  rw [splitAtChar_first '\x7b' "string".toList _ (by decide)]
  dsimp only
  rw [if_neg (show ¬((pyLower (pyStrip ("string".toList))).isEmpty = true)
    by decide)]
  rw [extract_brace_block_flat _ rest hinner]
  dsimp only
  rw [if_neg (show ¬(pyLower (pyStrip ("string".toList)) = "comment".toList)
    by decide)]
  rw [if_neg (show ¬(pyLower (pyStrip ("string".toList)) = "preamble".toList)
    by decide)]
  rw [if_pos (show pyLower (pyStrip ("string".toList)) = "string".toList
    by decide)]
  rw [parse_key_value_eq N V hN hV hVne]

/-- Scanning one well-formed `@misc{k, note = N,}` block: the entry is
appended (when the key is new), its `note` value being `N` expanded
through the macro table accumulated so far. -/
theorem parse_blocks_entry_step (f : Nat) (e : Bool) (st : BibDocument)
    (pre N rest text : List Char) (hpre : '@' ∉ pre) (hN : isBareToken N = true)
    (hdup : st.entries.any (fun e0 => e0.key == ['k']) = false)
    (htext : text = pre ++ '@' :: ("misc".toList ++ '\x7b' ::
      (('k' :: ',' :: (' ' :: 'n' :: 'o' :: 't' :: 'e' :: ' ' :: '=' :: ' ' ::
        (N ++ [',']))) ++ '\x7d' :: rest))) :
    parse_blocks (f + 1) e st text =
      parse_blocks f e
        { st with entries := st.entries ++
            [{ type := "misc".toList, key := ['k'],
               fields := [("note".toList,
                 if e then (lookupStringTable st.strings N).getD N else N)] }] }
        rest := by
  have hinner : ∀ ch ∈ ('k' :: ',' :: (' ' :: 'n' :: 'o' :: 't' :: 'e' :: ' ' ::
      '=' :: ' ' :: (N ++ [',']))), ch ≠ '\x7b' ∧ ch ≠ '\x7d' := by
    intro ch hc
    rw [show ('k' :: ',' :: (' ' :: 'n' :: 'o' :: 't' :: 'e' :: ' ' :: '=' ::
      ' ' :: (N ++ [',']))) = "k, note = ".toList ++ (N ++ [',']) from by
        simp] at hc
    simp only [List.mem_append] at hc
    rcases hc with h1 | h1 | h1
    · have hall : ∀ c ∈ "k, note = ".toList, c ≠ '\x7b' ∧ c ≠ '\x7d' := by
        decide
      exact hall ch h1
    · have hf := wordChar_facts ch (bareToken_word N hN ch h1)
      exact ⟨hf.2.2.1, hf.2.2.2.1⟩
    · simp only [List.mem_singleton] at h1
      subst h1
      exact ⟨by decide, by decide⟩
  rw [htext]
  simp only [parse_blocks]
  rw [splitAtChar_first '@' pre _ hpre]
  dsimp only
  rw [splitAtChar_first '\x7b' "misc".toList _ (by decide)]
  dsimp only
  rw [if_neg (show ¬((pyLower (pyStrip ("misc".toList))).isEmpty = true)
    by decide)]
  rw [extract_brace_block_flat _ rest hinner]
  dsimp only
  rw [if_neg (show ¬(pyLower (pyStrip ("misc".toList)) = "comment".toList)
    by decide)]
  rw [if_neg (show ¬(pyLower (pyStrip ("misc".toList)) = "preamble".toList)
    by decide)]
  rw [if_neg (show ¬(pyLower (pyStrip ("misc".toList)) = "string".toList)
    by decide)]
  rw [show pyLower (pyStrip ("misc".toList)) = "misc".toList from by decide]
  rw [parse_entry_note e st.strings N hN]
  dsimp only
  rw [if_neg (show ¬(List.isEmpty ['k'] = true) by decide)]
  rw [hdup]
  simp only [Bool.false_eq_true, if_false]

/-- No character of a C1 string block is a newline. -/
theorem c1_nl_string (N V rest : List Char) (hN : isBareToken N = true)
    (hVnl : ∀ c ∈ V, c ≠ '\n') (hrest : ∀ c ∈ rest, c ≠ '\n') :
    ∀ c ∈ c1StringBlock N V rest, c ≠ '\n' := by
  intro c hc
  simp only [c1StringBlock, List.mem_cons, List.mem_append, List.mem_singleton] at hc
  rcases hc with rfl | hc | rfl | (((hc | hc) | hc) | rfl | hc) | rfl | hc
  · decide
  · exact (show ∀ c ∈ "string".toList, c ≠ '\n' by decide) c hc
  · decide
  · exact (wordChar_facts c (bareToken_word N hN c hc)).2.2.2.2.2.2.1
  · exact (show ∀ c ∈ " = \"".toList, c ≠ '\n' by decide) c hc
  · exact hVnl c hc
  · decide
  · simp at hc
  · decide
  · exact hrest c hc

/-- No character of a C1 entry block is a newline. -/
theorem c1_nl_entry (N rest : List Char) (hN : isBareToken N = true)
    (hrest : ∀ c ∈ rest, c ≠ '\n') :
    ∀ c ∈ c1EntryBlock N rest, c ≠ '\n' := by
  intro c hc
  simp only [c1EntryBlock, c1Entry, List.mem_cons, List.mem_append,
    List.mem_singleton] at hc
  rcases hc with rfl | hc | rfl |
    (rfl | rfl | rfl | rfl | rfl | rfl | rfl | rfl | rfl | rfl | hc | rfl | hc) |
    rfl | hc
  · decide
  · exact (show ∀ c ∈ "misc".toList, c ≠ '\n' by decide) c hc
  all_goals first
    | decide
    | exact (wordChar_facts c (bareToken_word N hN c hc)).2.2.2.2.2.2.1
    | simp at hc
    | exact hrest c hc

/-- C1: a well-formed `@string{N = "V"}` declared before an entry using
the bare token `N` as a field value makes that field's value `V` under
`expand_strings`; with two earlier declarations of `N` the first in
declaration order wins and the chosen value is stored verbatim, not
re-expanded; a declaration appearing only after the entry leaves the
token `N` unexpanded. -/
theorem claim_C1 (N V V2 : List Char)
    (hN : isBareToken N = true)
    (hV : ∀ c ∈ V, c ≠ '"' ∧ c ≠ '\x7b' ∧ c ≠ '\x7d' ∧ c ≠ '\n')
    (hVne : V ≠ [])
    (hV2 : ∀ c ∈ V2, c ≠ '"' ∧ c ≠ '\x7b' ∧ c ≠ '\x7d' ∧ c ≠ '\n')
    (hV2ne : V2 ≠ []) :
    parse_string true (c1StringBlock N V (' ' :: c1EntryBlock N [])) =
      .ok { entries := [{ type := "misc".toList, key := ['k'],
                          fields := [("note".toList, V)] }],
            comments := [], preambles := [], strings := [(N, V)] } ∧
    parse_string true
        (c1StringBlock N V (' ' :: c1StringBlock N V2 (' ' :: c1EntryBlock N []))) =
      .ok { entries := [{ type := "misc".toList, key := ['k'],
                          fields := [("note".toList, V)] }],
            comments := [], preambles := [],
            strings := [(N, V), (N, V2)] } ∧
    parse_string true (c1EntryBlock N (' ' :: c1StringBlock N V [])) =
      .ok { entries := [{ type := "misc".toList, key := ['k'],
                          fields := [("note".toList, N)] }],
            comments := [], preambles := [], strings := [(N, V)] } := by
  refine ⟨?_, ?_, ?_⟩
  · have hV3 : ∀ c ∈ V, c ≠ '"' ∧ c ≠ '\x7b' ∧ c ≠ '\x7d' :=
      fun c hc => ⟨(hV c hc).1, (hV c hc).2.1, (hV c hc).2.2.1⟩
    have htail : ∀ c ∈ (' ' :: c1EntryBlock N []), c ≠ '\n' := by
      intro c hc
      rcases List.mem_cons.mp hc with rfl | h
      · decide
      · exact c1_nl_entry N [] hN (by simp) c h
    have hnl : ∀ c ∈ c1StringBlock N V (' ' :: c1EntryBlock N []), c ≠ '\n' :=
      c1_nl_string N V _ hN (fun c hc => (hV c hc).2.2.2) htail
    show parse_blocks
        ((normalizeLineJoins (c1StringBlock N V (' ' :: c1EntryBlock N []))).length + 1)
        true emptyDoc (normalizeLineJoins (c1StringBlock N V (' ' :: c1EntryBlock N []))) = _
    rw [normalizeLineJoins_id _ hnl]
    rw [parse_blocks_string_step (c1StringBlock N V (' ' :: c1EntryBlock N [])).length
      true emptyDoc [] N V (' ' :: c1EntryBlock N []) _ (by simp) hN hV3 hVne
      (by simp [c1StringBlock])]
    obtain ⟨m, hm⟩ : ∃ m, (c1StringBlock N V (' ' :: c1EntryBlock N [])).length = m + 1 :=
      ⟨("string".toList ++ '\x7b' :: ((N ++ " = \"".toList ++ V ++ ['"']) ++ '\x7d' ::
        (' ' :: c1EntryBlock N []))).length, by simp [c1StringBlock]⟩
    rw [hm]
    rw [parse_blocks_entry_step m true _ [' '] N [] _ (by decide) hN (by rfl)
      (by simp [c1EntryBlock, c1Entry])]
    rw [parse_blocks_nil_input]
    simp [lookupStringTable, emptyDoc]
  · have hV3 : ∀ c ∈ V, c ≠ '"' ∧ c ≠ '\x7b' ∧ c ≠ '\x7d' :=
      fun c hc => ⟨(hV c hc).1, (hV c hc).2.1, (hV c hc).2.2.1⟩
    have hV23 : ∀ c ∈ V2, c ≠ '"' ∧ c ≠ '\x7b' ∧ c ≠ '\x7d' :=
      fun c hc => ⟨(hV2 c hc).1, (hV2 c hc).2.1, (hV2 c hc).2.2.1⟩
    have htail0 : ∀ c ∈ (' ' :: c1EntryBlock N []), c ≠ '\n' := by
      intro c hc
      rcases List.mem_cons.mp hc with rfl | h
      · decide
      · exact c1_nl_entry N [] hN (by simp) c h
    have htail1 : ∀ c ∈ (' ' :: c1StringBlock N V2 (' ' :: c1EntryBlock N [])), c ≠ '\n' := by
      intro c hc
      rcases List.mem_cons.mp hc with rfl | h
      · decide
      · exact c1_nl_string N V2 _ hN (fun c hc => (hV2 c hc).2.2.2) htail0 c h
    have hnl : ∀ c ∈ c1StringBlock N V (' ' :: c1StringBlock N V2 (' ' :: c1EntryBlock N [])), c ≠ '\n' :=
      c1_nl_string N V _ hN (fun c hc => (hV c hc).2.2.2) htail1
    show parse_blocks
        ((normalizeLineJoins (c1StringBlock N V (' ' :: c1StringBlock N V2 (' ' :: c1EntryBlock N [])))).length + 1)
        true emptyDoc (normalizeLineJoins (c1StringBlock N V (' ' :: c1StringBlock N V2 (' ' :: c1EntryBlock N [])))) = _
    rw [normalizeLineJoins_id _ hnl]
    rw [parse_blocks_string_step _ true emptyDoc [] N V
      (' ' :: c1StringBlock N V2 (' ' :: c1EntryBlock N [])) _ (by simp) hN hV3 hVne
      (by simp [c1StringBlock])]
    obtain ⟨m, hm⟩ : ∃ m,
        (c1StringBlock N V (' ' :: c1StringBlock N V2 (' ' :: c1EntryBlock N []))).length = m + 1 :=
      ⟨(c1StringBlock N V (' ' :: c1StringBlock N V2 (' ' :: c1EntryBlock N []))).length - 1,
        by simp [c1StringBlock]⟩
    rw [hm]
    rw [parse_blocks_string_step m true _ [' '] N V2 (' ' :: c1EntryBlock N [])
      (' ' :: c1StringBlock N V2 (' ' :: c1EntryBlock N [])) (by decide) hN hV23 hV2ne
      (by simp [c1StringBlock])]
    obtain ⟨m2, hm2⟩ : ∃ m2, m = m2 + 1 := by
      refine ⟨m - 1, ?_⟩
      have h1 : (c1StringBlock N V (' ' :: c1StringBlock N V2 (' ' :: c1EntryBlock N []))).length =
          m + 1 := hm
      simp [c1StringBlock, c1EntryBlock, c1Entry] at h1
      omega
    rw [hm2]
    rw [parse_blocks_entry_step m2 true _ [' '] N [] (' ' :: c1EntryBlock N [])
      (by decide) hN (by rfl) (by simp [c1EntryBlock, c1Entry])]
    rw [parse_blocks_nil_input]
    simp [lookupStringTable, emptyDoc]
  · have hV3 : ∀ c ∈ V, c ≠ '"' ∧ c ≠ '\x7b' ∧ c ≠ '\x7d' :=
      fun c hc => ⟨(hV c hc).1, (hV c hc).2.1, (hV c hc).2.2.1⟩
    have htail : ∀ c ∈ (' ' :: c1StringBlock N V []), c ≠ '\n' := by
      intro c hc
      rcases List.mem_cons.mp hc with rfl | h
      · decide
      · exact c1_nl_string N V [] hN (fun c hc => (hV c hc).2.2.2) (by simp) c h
    have hnl : ∀ c ∈ c1EntryBlock N (' ' :: c1StringBlock N V []), c ≠ '\n' :=
      c1_nl_entry N _ hN htail
    show parse_blocks
        ((normalizeLineJoins (c1EntryBlock N (' ' :: c1StringBlock N V []))).length + 1)
        true emptyDoc (normalizeLineJoins (c1EntryBlock N (' ' :: c1StringBlock N V []))) = _
    rw [normalizeLineJoins_id _ hnl]
    rw [parse_blocks_entry_step _ true emptyDoc [] N (' ' :: c1StringBlock N V []) _
      (by simp) hN (by rfl) (by simp [c1EntryBlock, c1Entry])]
    obtain ⟨m, hm⟩ : ∃ m, (c1EntryBlock N (' ' :: c1StringBlock N V [])).length = m + 1 :=
      ⟨(c1EntryBlock N (' ' :: c1StringBlock N V [])).length - 1,
        by simp [c1EntryBlock, c1Entry]⟩
    rw [hm]
    rw [parse_blocks_string_step m true _ [' '] N V [] (' ' :: c1StringBlock N V [])
      (by decide) hN hV3 hVne (by simp [c1StringBlock])]
    rw [parse_blocks_nil_input]
    simp [lookupStringTable, emptyDoc]

/-- Witness: `claim_C1` at the concrete macro `jan = "January"` (and a
second declaration `jan = "Jan2"`). -/
theorem claim_C1_witness :
    parse_string true (c1StringBlock "jan".toList "January".toList
        (' ' :: c1EntryBlock "jan".toList [])) =
      .ok { entries := [{ type := "misc".toList, key := ['k'],
                          fields := [("note".toList, "January".toList)] }],
            comments := [], preambles := [],
            strings := [("jan".toList, "January".toList)] } ∧
    parse_string true (c1StringBlock "jan".toList "January".toList
        (' ' :: c1StringBlock "jan".toList "Jan2".toList
          (' ' :: c1EntryBlock "jan".toList []))) =
      .ok { entries := [{ type := "misc".toList, key := ['k'],
                          fields := [("note".toList, "January".toList)] }],
            comments := [], preambles := [],
            strings := [("jan".toList, "January".toList),
                        ("jan".toList, "Jan2".toList)] } ∧
    parse_string true (c1EntryBlock "jan".toList
        (' ' :: c1StringBlock "jan".toList "January".toList [])) =
      .ok { entries := [{ type := "misc".toList, key := ['k'],
                          fields := [("note".toList, "jan".toList)] }],
            comments := [], preambles := [],
            strings := [("jan".toList, "January".toList)] } :=
  claim_C1 "jan".toList "January".toList "Jan2".toList (by decide) (by decide)
    (by decide) (by decide) (by decide)

/-! ### Injector lemmas (claim C9) -/

/-- `splitAtChar` returns the split at the first occurrence. -/
theorem splitAtChar_decomp (c : Char) :
    ∀ s a b, splitAtChar c s = some (a, b) → s = a ++ c :: b ∧ c ∉ a := by
  intro s
  induction s with
  | nil => intro a b h; simp [splitAtChar] at h
  | cons x t ih =>
    intro a b h
    by_cases hx : x = c
    · simp only [splitAtChar, if_pos hx] at h
      simp only [Option.some.injEq, Prod.mk.injEq] at h
      obtain ⟨h1, h2⟩ := h
      subst h1; subst h2; subst hx
      exact ⟨rfl, by simp⟩
    · simp only [splitAtChar, if_neg hx] at h
      cases hsub : splitAtChar c t with
      | none => rw [hsub] at h; cases h
      | some p =>
        obtain ⟨a0, b0⟩ := p
        rw [hsub] at h
        simp only [Option.some.injEq, Prod.mk.injEq] at h
        obtain ⟨h1, h2⟩ := h
        obtain ⟨ih1, ih2⟩ := ih a0 b0 hsub
        subst h2
        rw [← h1]
        refine ⟨by rw [ih1]; rfl, ?_⟩
        intro hmem
        rcases List.mem_cons.mp hmem with hcx | hca
        · exact hx hcx.symm
        · exact ih2 hca

/-- A successful `checkOpenDiv` splits off exactly an opening div tag of
the accepted shape. -/
theorem checkOpenDiv_decomp (tid : List Char) :
    ∀ s tag rest, checkOpenDiv tid s = some (tag, rest) →
      s = tag ++ rest ∧ OpenDivTag tid tag := by
  intro s tag rest h
  match s with
  | [] => simp [checkOpenDiv] at h
  | [a1] => simp [checkOpenDiv] at h
  | [a1, a2] => simp [checkOpenDiv] at h
  | [a1, a2, a3] => simp [checkOpenDiv] at h
  | a1 :: a2 :: a3 :: a4 :: s1 =>
    simp only [checkOpenDiv] at h
    by_cases hg : (a1 = '<' && a2 = 'd' && a3 = 'i' && a4 = 'v') = true
    · rw [if_pos hg] at h
      simp only [Bool.and_eq_true, decide_eq_true_eq] at hg
      obtain ⟨⟨⟨e1, e2⟩, e3⟩, e4⟩ := hg
      subst e1; subst e2; subst e3; subst e4
      cases s1 with
      | nil => simp at h
      | cons c s2 =>
        dsimp only at h
        by_cases hsp : pyIsSpace c = true
        · rw [if_pos hsp] at h
          cases hsplit : splitAtChar '>' (c :: s2) with
          | none => rw [hsplit] at h; cases h
          | some p =>
            obtain ⟨seg, rest0⟩ := p
            rw [hsplit] at h
            dsimp only at h
            by_cases hid : idAttrHit tid seg = true
            · rw [if_pos hid] at h
              simp only [Option.some.injEq, Prod.mk.injEq] at h
              obtain ⟨htag, hrest⟩ := h
              obtain ⟨hdec, hnot⟩ := splitAtChar_decomp '>' (c :: s2) seg rest0 hsplit
              cases seg with
              | nil =>
                simp only [List.nil_append] at hdec
                have hc : c = '>' := by
                  have := List.head_eq_of_cons_eq hdec
                  exact this
                rw [hc] at hsp
                simp [pyIsSpace] at hsp
              | cons c0 segt =>
                simp only [List.cons_append, List.cons.injEq] at hdec
                obtain ⟨hc, hs2⟩ := hdec
                constructor
                · rw [← htag, ← hrest, hs2]
                  simp [hc]
                · refine ⟨c0, segt, htag.symm, ?_, ?_, hid⟩
                  · rw [← hc]; exact hsp
                  · exact hnot
            · rw [if_neg hid] at h; cases h
        · rw [if_neg hsp] at h; cases h
    · rw [if_neg hg] at h; cases h

/-- `findFullDiv` finds the leftmost full div block: the input decomposes
around the returned groups, the tag has the accepted opening shape, and no
earlier position starts a matching opening tag. -/
theorem findFullDiv_sound (tid : List Char) :
    ∀ fuel s pre tag inner post,
      findFullDiv tid fuel s = some (pre, tag, inner, post) →
        s = pre ++ tag ++ inner ++ "</div>".toList ++ post ∧
        OpenDivTag tid tag ∧
        (∀ i, i < pre.length → checkOpenDiv tid (s.drop i) = none) := by
  intro fuel
  induction fuel with
  | zero => intro s pre tag inner post h; simp [findFullDiv] at h
  | succ n ih =>
    intro s pre tag inner post h
    simp only [findFullDiv] at h
    cases hopen : checkOpenDiv tid s with
    | some p =>
      obtain ⟨tag0, rest0⟩ := p
      rw [hopen] at h
      dsimp only at h
      cases hsub : splitAtSub "</div>".toList rest0 with
      | none => rw [hsub] at h; cases h
      | some q =>
        obtain ⟨inner0, post0⟩ := q
        rw [hsub] at h
        dsimp only at h
        simp only [Option.some.injEq, Prod.mk.injEq] at h
        obtain ⟨hpre, htag, hinner, hpost⟩ := h
        subst htag; subst hinner; subst hpost
        obtain ⟨hdec, hshape⟩ := checkOpenDiv_decomp tid s tag0 rest0 hopen
        subst hpre
        refine ⟨?_, hshape, ?_⟩
        · rw [hdec, splitAtSub_decomp "</div>".toList rest0 inner0 post0 hsub]
          simp
        · intro i hi
          simp at hi
    | none =>
      rw [hopen] at h
      dsimp only at h
      cases s with
      | nil => exact absurd h (by simp)
      | cons c t =>
        dsimp only at h
        cases hrec : findFullDiv tid n t with
        | none => rw [hrec] at h; cases h
        | some q =>
          obtain ⟨pre1, tag1, inner1, post1⟩ := q
          rw [hrec] at h
          dsimp only at h
          simp only [Option.some.injEq, Prod.mk.injEq] at h
          obtain ⟨hpre, htag, hinner, hpost⟩ := h
          obtain ⟨ha, hb, hfirst⟩ := ih t pre1 tag1 inner1 post1 hrec
          subst htag; subst hinner; subst hpost
          refine ⟨?_, hb, ?_⟩
          · rw [← hpre, ha]; simp
          · intro i hi
            cases i with
            | zero => simpa using hopen
            | succ j =>
              have hj : j < pre1.length := by
                rw [← hpre] at hi
                simpa using hi
              simpa using hfirst j hj

/-- C9 (counterexample): the host `<span id="pubs">A</span>` contains an
element whose opening tag carries id `pubs`, yet `inject_html` fails with
element-not-found — the injector only ever targets `<div>` elements, so
the claim's "first element in document order whose opening tag carries
id equal to target_id" is not the element whose interior is replaced. -/
theorem claim_C9_cex :
    ClaimIdElementAt "pubs".toList c9Span ∧
    inject_html c9Span "X".toList "pubs".toList = .error .elementNotFound := by
  constructor
  · refine ⟨[], "<span id=\"pubs\">".toList, "A</span>".toList, by decide, ?_⟩
    exact ⟨"span".toList, ' ', "id=\"pubs\"".toList, by decide, by decide,
      by decide, by decide, by decide, by decide⟩
  · rfl

/-- C9 (amended): when `inject_html` succeeds, the host decomposes around
the first full `<div … id=… >…</div>` block in document order: text
before the opening tag, the opening tag itself, and the literal `</div>`
closing tag with everything after it are preserved verbatim, no earlier
position of the host starts a matching opening div tag, and only the
interior is replaced by newline + re-indented content + newline + base
indent (the indent captured from the first line-anchored matching div).
Concretely, a host with two divs sharing the id gets only the first one
replaced (`OLD` removed), the second left verbatim, and an initially
empty div gets the same interior shape. -/
theorem claim_C9 :
    (∀ (html content tid r : List Char),
        inject_html html content tid = .ok r →
        ∃ pre tag inner post base_indent,
          html = pre ++ tag ++ inner ++ "</div>".toList ++ post ∧
          OpenDivTag tid tag ∧
          (∀ i, i < pre.length → checkOpenDiv tid (html.drop i) = none) ∧
          findOpenDivIndent tid (html.length + 1) html = some base_indent ∧
          r = pre ++ tag ++
              injectedInner base_indent
                (detect_indent_unit (pySplit html ['\n'])) content ++
              "</div>".toList ++ post) ∧
    inject_html c9Host "X".toList "pubs".toList = .ok c9Out ∧
    inject_html "<div id=\"t\"></div>".toList "X".toList "t".toList =
      .ok "<div id=\"t\">\n  X\n</div>".toList := by
  refine ⟨?_, rfl, rfl⟩
  intro html content tid r h
  unfold inject_html at h
  cases hind : findOpenDivIndent tid (html.length + 1) html with
  | none => rw [hind] at h; cases h
  | some base =>
    rw [hind] at h
    dsimp only at h
    cases hfull : findFullDiv tid (html.length + 1) html with
    | none => rw [hfull] at h; cases h
    | some q =>
      obtain ⟨pre, tag, inner, post⟩ := q
      rw [hfull] at h
      dsimp only at h
      obtain ⟨hdec, hshape, hfirst⟩ :=
        findFullDiv_sound tid (html.length + 1) html pre tag inner post hfull
      refine ⟨pre, tag, inner, post, base, hdec, hshape, hfirst, rfl, ?_⟩
      cases h
      rfl

/-- C9 witness: the frame description instantiated at the two-div host. -/
theorem claim_C9_witness :
    ∃ pre tag inner post base_indent,
      c9Host = pre ++ tag ++ inner ++ "</div>".toList ++ post ∧
      OpenDivTag "pubs".toList tag ∧
      (∀ i, i < pre.length → checkOpenDiv "pubs".toList (c9Host.drop i) = none) ∧
      findOpenDivIndent "pubs".toList (c9Host.length + 1) c9Host = some base_indent ∧
      c9Out = pre ++ tag ++
          injectedInner base_indent
            (detect_indent_unit (pySplit c9Host ['\n'])) "X".toList ++
          "</div>".toList ++ post :=
  claim_C9.1 c9Host "X".toList "pubs".toList c9Out (by rfl)

theorem isBlank_pyIsSpace (c : Char) (h : isBlank c = true) :
    pyIsSpace c = true := by
  simp only [isBlank, Bool.or_eq_true, decide_eq_true_eq] at h
  rcases h with h | h <;> subst h <;> decide

theorem isBlank_ne_nl (c : Char) (h : isBlank c = true) : c ≠ '\n' := by
  simp only [isBlank, Bool.or_eq_true, decide_eq_true_eq] at h
  rcases h with h | h <;> subst h <;> decide

theorem takeWhile_append_stop (p : Char → Bool) (a b : List Char)
    (h : a.dropWhile p ≠ []) : (a ++ b).takeWhile p = a.takeWhile p := by
  rw [List.takeWhile_append, if_neg]
  intro he
  apply h
  have heq : a.takeWhile p = a := (List.takeWhile_prefix p).eq_of_length he
  have hcat := @List.takeWhile_append_dropWhile _ p a
  rw [heq] at hcat
  exact List.append_cancel_left
    (show a ++ a.dropWhile p = a ++ [] by rw [hcat, List.append_nil])

theorem dropWhile_append_stop (p : Char → Bool) (a b : List Char)
    (h : a.dropWhile p ≠ []) : (a ++ b).dropWhile p = a.dropWhile p ++ b := by
  rw [List.dropWhile_append, if_neg (by simpa using h)]

theorem getLast_append_right (a b : List Char) (h : b ≠ []) :
    (a ++ b).getLast? = b.getLast? := List.getLast?_append_of_ne_nil a h

/-- Every member of a list whose `dropWhile` is empty satisfies the predicate. -/
theorem dropWhile_nil_all (p : Char → Bool) (l : List Char)
    (h : l.dropWhile p = []) : ∀ c ∈ l, p c = true := by
  induction l with
  | nil => intro c hc; cases hc
  | cons x t ih =>
    intro c hc
    rw [List.dropWhile_cons] at h
    by_cases hx : p x = true
    · rw [if_pos hx] at h
      rcases List.mem_cons.mp hc with he | ht
      · subst he; exact hx
      · exact ih h c ht
    · rw [if_neg hx] at h
      cases h

theorem splitAtChar_mem (c : Char) :
    ∀ l : List Char, c ∈ l → ∃ a b, splitAtChar c l = some (a, b) := by
  intro l
  induction l with
  | nil => intro h; cases h
  | cons x t ih =>
    intro h
    by_cases hx : x = c
    · exact ⟨[], t, by simp [splitAtChar, hx]⟩
    · have hct : c ∈ t := by
        rcases List.mem_cons.mp h with he | ht
        · exact absurd he.symm hx
        · exact ht
      obtain ⟨a, b, hab⟩ := ih hct
      exact ⟨x :: a, b, by simp [splitAtChar, hx, hab]⟩

theorem splitAtLastNl_exists_aux :
    ∀ l : List Char, '\n' ∈ l →
      ∃ a b, matchOpenP.splitAtLastNl l = some (a, b) := by
  intro l
  induction l with
  | nil => intro h; cases h
  | cons c t ih =>
    intro h
    rw [matchOpenP.splitAtLastNl]
    cases hrec : matchOpenP.splitAtLastNl t with
    | some p =>
      obtain ⟨a0, b0⟩ := p
      exact ⟨c :: a0, b0, rfl⟩
    | none =>
      have hc : c = '\n' := by
        rcases List.mem_cons.mp h with he | ht
        · exact he.symm
        · obtain ⟨a, b, hab⟩ := ih ht
          rw [hab] at hrec; cases hrec
      dsimp only
      rw [if_pos hc]
      exact ⟨[c], t, rfl⟩

theorem splitAtLastNl_sound :
    ∀ l a b, matchOpenP.splitAtLastNl l = some (a, b) →
      l = a ++ b ∧ a.getLast? = some '\n' ∧ '\n' ∉ b := by
  intro l
  induction l with
  | nil => intro a b h; simp [matchOpenP.splitAtLastNl] at h
  | cons c t ih =>
    intro a b h
    rw [matchOpenP.splitAtLastNl] at h
    cases hrec : matchOpenP.splitAtLastNl t with
    | some p =>
      obtain ⟨a0, b0⟩ := p
      rw [hrec] at h
      dsimp only at h
      simp only [Option.some.injEq, Prod.mk.injEq] at h
      obtain ⟨h1, h2⟩ := h
      obtain ⟨ihd, ihl, ihn⟩ := ih a0 b0 hrec
      subst h2
      rw [← h1]
      refine ⟨by rw [ihd]; rfl, ?_, ihn⟩
      cases a0 with
      | nil => simp at ihl
      | cons y ys =>
        rw [show (c :: (y :: ys)) = [c] ++ (y :: ys) from rfl,
            getLast_append_right [c] (y :: ys) (by simp)]
        exact ihl
    | none =>
      rw [hrec] at h
      dsimp only at h
      by_cases hc : c = '\n'
      · rw [if_pos hc] at h
        simp only [Option.some.injEq, Prod.mk.injEq] at h
        obtain ⟨h1, h2⟩ := h
        subst h2
        rw [← h1]
        refine ⟨rfl, by rw [hc]; rfl, ?_⟩
        intro hmem
        obtain ⟨x, y, hxy⟩ := splitAtLastNl_exists_aux t hmem
        rw [hxy] at hrec; cases hrec
      · rw [if_neg hc] at h; cases h

theorem splitAtLastNl_last_nl :
    ∀ l : List Char, l.getLast? = some '\n' →
      matchOpenP.splitAtLastNl l = some (l, []) := by
  intro l
  induction l with
  | nil => intro h; cases h
  | cons c t ih =>
    intro h
    rw [matchOpenP.splitAtLastNl]
    cases t with
    | nil =>
      have hc : c = '\n' := by simpa using h
      rw [matchOpenP.splitAtLastNl]
      dsimp only
      rw [if_pos hc, hc]
    | cons d u =>
      have ht : (d :: u).getLast? = some '\n' := by
        rw [show c :: d :: u = [c] ++ (d :: u) from rfl,
            getLast_append_right [c] (d :: u) (by simp)] at h
        exact h
      rw [ih ht]

theorem splitAtLastNl_append_no_nl (a b x y : List Char)
    (hb : '\n' ∉ b) (h : matchOpenP.splitAtLastNl a = some (x, y)) :
    matchOpenP.splitAtLastNl (a ++ b) = some (x, y ++ b) := by
  induction a generalizing x y with
  | nil => simp [matchOpenP.splitAtLastNl] at h
  | cons c t ih =>
    rw [matchOpenP.splitAtLastNl] at h
    rw [List.cons_append, matchOpenP.splitAtLastNl]
    cases hrec : matchOpenP.splitAtLastNl t with
    | some p =>
      obtain ⟨a0, b0⟩ := p
      rw [hrec] at h
      dsimp only at h
      simp only [Option.some.injEq, Prod.mk.injEq] at h
      obtain ⟨h1, h2⟩ := h
      rw [ih a0 b0 hrec]
      dsimp only
      rw [← h1, ← h2]
    | none =>
      rw [hrec] at h
      dsimp only at h
      by_cases hc : c = '\n'
      · rw [if_pos hc] at h
        simp only [Option.some.injEq, Prod.mk.injEq] at h
        obtain ⟨h1, h2⟩ := h
        have htb : matchOpenP.splitAtLastNl (t ++ b) = none := by
          cases htb' : matchOpenP.splitAtLastNl (t ++ b) with
          | none => rfl
          | some q =>
            obtain ⟨x0, y0⟩ := q
            obtain ⟨hd, hl, _⟩ := splitAtLastNl_sound (t ++ b) x0 y0 htb'
            exfalso
            have hmem : '\n' ∈ t ++ b := by
              rw [hd]
              exact List.mem_append_left _ (List.mem_of_mem_getLast? hl)
            rcases List.mem_append.mp hmem with hmt | hmb
            · obtain ⟨u1, u2, hu⟩ := splitAtLastNl_exists_aux t hmt
              rw [hu] at hrec; cases hrec
            · exact hb hmb
        rw [htb]
        dsimp only
        rw [if_pos hc, ← h1, ← h2]
      · rw [if_neg hc] at h; cases h

/-- Symbolic evaluation of `matchOpenP` on an input of the open-group
shape followed by arbitrary text. -/
theorem matchOpenP_eval (tp indent wt attrs wsnl rest2 runA runB : List Char)
    (w : Char)
    (hind : ∀ c ∈ indent, isBlank c = true)
    (hwsall : ∀ c ∈ w :: wt, pyIsSpace c = true)
    (hattrs : '>' ∉ attrs)
    (hwsnl : ∀ c ∈ wsnl, pyIsSpace c = true)
    (hsplit : matchOpenP.splitAtLastNl (wsnl ++ rest2.takeWhile pyIsSpace) =
      some (runA, runB)) :
    matchOpenP tp (indent ++ '<' :: 'p' :: w ::
        (wt ++ (("id=\"bi-".toList ++ tp ++ ['"']) ++
          (attrs ++ '>' :: (wsnl ++ rest2))))) =
      some (indent ++ '<' :: 'p' :: ((w :: wt) ++
              (("id=\"bi-".toList ++ tp ++ ['"']) ++
                (attrs ++ '>' :: runA))),
            runB ++ rest2.dropWhile pyIsSpace) := by
  have hid : "id=\"bi-".toList = 'i' :: 'd' :: '=' :: '"' :: 'b' :: 'i' :: '-' :: [] := rfl
  have hw : pyIsSpace w = true := hwsall w (by simp)
  have h1 : ((indent ++ '<' :: 'p' :: w ::
      (wt ++ (("id=\"bi-".toList ++ tp ++ ['"']) ++
        (attrs ++ '>' :: (wsnl ++ rest2))))).takeWhile isBlank) = indent := by
    rw [takeWhile_append_all isBlank indent _ hind,
        takeWhile_cons_neg isBlank '<' _ (by decide), List.append_nil]
  have h2 : ((indent ++ '<' :: 'p' :: w ::
      (wt ++ (("id=\"bi-".toList ++ tp ++ ['"']) ++
        (attrs ++ '>' :: (wsnl ++ rest2))))).dropWhile isBlank) =
      '<' :: 'p' :: w :: (wt ++ (("id=\"bi-".toList ++ tp ++ ['"']) ++
        (attrs ++ '>' :: (wsnl ++ rest2)))) := by
    rw [dropWhile_append_all isBlank indent _ hind,
        dropWhile_cons_neg isBlank '<' _ (by decide)]
  have hcons : (("id=\"bi-".toList ++ tp ++ ['"']) ++
      (attrs ++ '>' :: (wsnl ++ rest2))) =
      'i' :: (('d' :: '=' :: '"' :: 'b' :: 'i' :: '-' :: [] ++ tp ++ ['"']) ++
        (attrs ++ '>' :: (wsnl ++ rest2))) := by
    rw [hid]; simp
  have h3 : List.takeWhile pyIsSpace (w :: (wt ++
      (("id=\"bi-".toList ++ tp ++ ['"']) ++
        (attrs ++ '>' :: (wsnl ++ rest2))))) = w :: wt := by
    have := takeWhile_append_all pyIsSpace (w :: wt)
      (("id=\"bi-".toList ++ tp ++ ['"']) ++ (attrs ++ '>' :: (wsnl ++ rest2))) hwsall
    simp only [List.cons_append] at this
    rw [this, hcons, takeWhile_cons_neg pyIsSpace 'i' _ (by decide), List.append_nil]
  have h4 : List.dropWhile pyIsSpace (w :: (wt ++
      (("id=\"bi-".toList ++ tp ++ ['"']) ++
        (attrs ++ '>' :: (wsnl ++ rest2))))) =
      ("id=\"bi-".toList ++ tp ++ ['"']) ++ (attrs ++ '>' :: (wsnl ++ rest2)) := by
    have := dropWhile_append_all pyIsSpace (w :: wt)
      (("id=\"bi-".toList ++ tp ++ ['"']) ++ (attrs ++ '>' :: (wsnl ++ rest2))) hwsall
    simp only [List.cons_append] at this
    rw [this, hcons, dropWhile_cons_neg pyIsSpace 'i' _ (by decide), ← hcons]
  have h5 : ("id=\"bi-".toList ++ tp ++ ['"']).isPrefixOf
      ((("id=\"bi-".toList ++ tp ++ ['"']) ++
        (attrs ++ '>' :: (wsnl ++ rest2)))) = true :=
    List.isPrefixOf_iff_prefix.mpr ⟨attrs ++ '>' :: (wsnl ++ rest2), rfl⟩
  have h6 : ((("id=\"bi-".toList ++ tp ++ ['"']) ++
      (attrs ++ '>' :: (wsnl ++ rest2))).drop
        ("id=\"bi-".toList ++ tp ++ ['"']).length) =
      attrs ++ '>' :: (wsnl ++ rest2) := List.drop_left _ _
  have h7 : splitAtChar '>' (attrs ++ '>' :: (wsnl ++ rest2)) =
      some (attrs, wsnl ++ rest2) := splitAtChar_first '>' attrs _ hattrs
  have h8 : ((wsnl ++ rest2).takeWhile pyIsSpace) =
      wsnl ++ rest2.takeWhile pyIsSpace := takeWhile_append_all _ _ _ hwsnl
  have h9 : ((wsnl ++ rest2).dropWhile pyIsSpace) =
      rest2.dropWhile pyIsSpace := dropWhile_append_all _ _ _ hwsnl
  simp only [matchOpenP]
  rw [h1, h2]
  dsimp only
  rw [if_pos rfl, if_pos rfl, if_pos hw, h3, h4, if_pos h5, h6, h7]
  dsimp only
  rw [h8, hsplit]
  dsimp only
  rw [h9]
  simp [List.append_assoc]

/-- Any decomposition whose first group has the open shape admits a
successful `matchOpenP` whose remainder still ends, at a line start, with
the closing group and following text. -/
theorem matchOpenP_complete (tp g1 g2 g3 post : List Char)
    (h1 : POpenGroup tp g1) (h2 : LineEndOk g2) (h3 : PCloseGroup g3) :
    ∃ g1' u, matchOpenP tp (g1 ++ (g2 ++ (g3 ++ post))) =
        some (g1', u ++ (g3 ++ post)) ∧ LineEndOk u := by
  obtain ⟨indent, ws, attrs, wsnl, hg1, hind, hws, hwsall, hattrs, hwsnlall, hlast⟩ := h1
  obtain ⟨ind3, hg3, hind3⟩ := h3
  obtain ⟨w, wt, hwseq⟩ := List.exists_cons_of_ne_nil hws
  subst hwseq
  subst hg1
  subst hg3
  have hcp : "</p>".toList = '<' :: '/' :: 'p' :: '>' :: [] := rfl
  have hnl3 : '\n' ∉ ind3 := fun hm => isBlank_ne_nl _ (hind3 _ hm) rfl
  have hin3sp : ∀ c ∈ ind3, pyIsSpace c = true :=
    fun c hc => isBlank_pyIsSpace c (hind3 c hc)
  have htw3 : ((ind3 ++ "</p>".toList) ++ post).takeWhile pyIsSpace = ind3 := by
    rw [List.append_assoc, takeWhile_append_all pyIsSpace ind3 _ hin3sp, hcp,
        List.cons_append, takeWhile_cons_neg pyIsSpace '<' _ (by decide),
        List.append_nil]
  have hdw3 : ((ind3 ++ "</p>".toList) ++ post).dropWhile pyIsSpace =
      "</p>".toList ++ post := by
    rw [List.append_assoc, dropWhile_append_all pyIsSpace ind3 _ hin3sp, hcp,
        List.cons_append, dropWhile_cons_neg pyIsSpace '<' _ (by decide),
        ← List.cons_append, ← hcp]
  have hshape : (indent ++ '<' :: 'p' ::
        ((w :: wt) ++ (("id=\"bi-".toList ++ tp ++ ['"']) ++
          (attrs ++ '>' :: wsnl)))) ++
        (g2 ++ (((ind3 ++ "</p>".toList) ++ post))) =
      indent ++ '<' :: 'p' :: w ::
        (wt ++ (("id=\"bi-".toList ++ tp ++ ['"']) ++
          (attrs ++ '>' :: (wsnl ++ (g2 ++ ((ind3 ++ "</p>".toList) ++ post)))))) := by
    simp [List.append_assoc]
  rw [hshape]
  by_cases hgd : g2.dropWhile pyIsSpace = []
  · -- whitespace-only middle group
    have hg2all : ∀ c ∈ g2, pyIsSpace c = true := dropWhile_nil_all _ _ hgd
    have htw : (g2 ++ ((ind3 ++ "</p>".toList) ++ post)).takeWhile pyIsSpace =
        g2 ++ ind3 := by
      rw [takeWhile_append_all pyIsSpace g2 _ hg2all, htw3]
    have hdw : (g2 ++ ((ind3 ++ "</p>".toList) ++ post)).dropWhile pyIsSpace =
        "</p>".toList ++ post := by
      rw [dropWhile_append_all pyIsSpace g2 _ hg2all, hdw3]
    have hrunlast : (wsnl ++ g2).getLast? = some '\n' := by
      rcases h2 with hg2nil | hg2last
      · subst hg2nil; simpa using hlast
      · rw [getLast_append_right wsnl g2 (by
          intro hn; subst hn; simp at hg2last)]
        exact hg2last
    have hsp : matchOpenP.splitAtLastNl
        (wsnl ++ (g2 ++ ((ind3 ++ "</p>".toList) ++ post)).takeWhile pyIsSpace) =
        some (wsnl ++ g2, ind3) := by
      rw [htw]
      have hbase := splitAtLastNl_last_nl (wsnl ++ g2) hrunlast
      have := splitAtLastNl_append_no_nl (wsnl ++ g2) ind3 (wsnl ++ g2) [] hnl3 hbase
      rw [List.append_assoc] at this
      simpa using this
    refine ⟨indent ++ '<' :: 'p' :: ((w :: wt) ++
        (("id=\"bi-".toList ++ tp ++ ['"']) ++
          (attrs ++ '>' :: (wsnl ++ g2)))), [], ?_, Or.inl rfl⟩
    rw [matchOpenP_eval tp indent wt attrs wsnl
        (g2 ++ ((ind3 ++ "</p>".toList) ++ post)) (wsnl ++ g2) ind3 w
        hind hwsall hattrs hwsnlall hsp, hdw]
    simp [List.append_assoc]
  · -- middle group contains a non-space character
    have htw : (g2 ++ ((ind3 ++ "</p>".toList) ++ post)).takeWhile pyIsSpace =
        g2.takeWhile pyIsSpace := takeWhile_append_stop pyIsSpace g2 _ hgd
    have hdw : (g2 ++ ((ind3 ++ "</p>".toList) ++ post)).dropWhile pyIsSpace =
        g2.dropWhile pyIsSpace ++ ((ind3 ++ "</p>".toList) ++ post) :=
      dropWhile_append_stop pyIsSpace g2 _ hgd
    have hmem : '\n' ∈ wsnl ++ (g2 ++ ((ind3 ++ "</p>".toList) ++ post)).takeWhile pyIsSpace :=
      List.mem_append_left _ (List.mem_of_mem_getLast? hlast)
    obtain ⟨runA, runB, hsp⟩ := splitAtLastNl_exists_aux _ hmem
    obtain ⟨hdec, hlastA, hnB⟩ := splitAtLastNl_sound _ runA runB hsp
    have hg2ne : g2 ≠ [] := by
      intro hn; subst hn; simp at hgd
    have hg2last : g2.getLast? = some '\n' := by
      rcases h2 with hg2nil | hg2last
      · exact absurd hg2nil hg2ne
      · exact hg2last
    have hulast : (runB ++ g2.dropWhile pyIsSpace).getLast? = some '\n' := by
      rw [getLast_append_right runB _ hgd]
      have := @List.takeWhile_append_dropWhile _ pyIsSpace g2
      calc (g2.dropWhile pyIsSpace).getLast?
          = (g2.takeWhile pyIsSpace ++ g2.dropWhile pyIsSpace).getLast? :=
            (getLast_append_right _ _ hgd).symm
        _ = g2.getLast? := by rw [this]
        _ = some '\n' := hg2last
    refine ⟨indent ++ '<' :: 'p' :: ((w :: wt) ++
        (("id=\"bi-".toList ++ tp ++ ['"']) ++
          (attrs ++ '>' :: runA))), runB ++ g2.dropWhile pyIsSpace, ?_, Or.inr hulast⟩
    rw [matchOpenP_eval tp indent wt attrs wsnl
        (g2 ++ ((ind3 ++ "</p>".toList) ++ post)) runA runB w
        hind hwsall hattrs hwsnlall hsp, hdw]
    simp [List.append_assoc]

theorem lineEndOk_extend (line pre1 : List Char) (h : LineEndOk pre1) :
    LineEndOk (line ++ '\n' :: pre1) := by
  right
  cases pre1 with
  | nil =>
    rw [show line ++ '\n' :: ([] : List Char) = line ++ ['\n'] from rfl,
        getLast_append_right line ['\n'] (by simp)]
    rfl
  | cons x xs =>
    rw [show line ++ '\n' :: (x :: xs) = (line ++ ['\n']) ++ (x :: xs) from by simp,
        getLast_append_right _ (x :: xs) (by simp)]
    rcases h with hnil | hl
    · cases hnil
    · exact hl

theorem checkCloseP_sound (s g3 : List Char) (h : checkCloseP s = some g3) :
    ∃ post, s = g3 ++ post ∧ PCloseGroup g3 := by
  simp only [checkCloseP] at h
  by_cases hpre : "</p>".toList.isPrefixOf (s.dropWhile isBlank) = true
  · rw [if_pos hpre] at h
    simp only [Option.some.injEq] at h
    obtain ⟨u, hu⟩ := List.isPrefixOf_iff_prefix.mp hpre
    refine ⟨u, ?_, ⟨s.takeWhile isBlank, h.symm,
      fun c hc => List.mem_takeWhile_imp hc⟩⟩
    rw [← h]
    calc s = s.takeWhile isBlank ++ s.dropWhile isBlank :=
          (@List.takeWhile_append_dropWhile _ isBlank s).symm
      _ = s.takeWhile isBlank ++ ("</p>".toList ++ u) := by rw [hu]
      _ = s.takeWhile isBlank ++ "</p>".toList ++ u := by rw [List.append_assoc]
  · rw [if_neg hpre] at h; cases h

theorem checkCloseP_complete (g3 post : List Char) (h : PCloseGroup g3) :
    checkCloseP (g3 ++ post) = some g3 := by
  obtain ⟨ind, hg3, hind⟩ := h
  subst hg3
  have hcp : "</p>".toList = '<' :: '/' :: 'p' :: '>' :: [] := rfl
  have htw : ((ind ++ "</p>".toList) ++ post).takeWhile isBlank = ind := by
    rw [List.append_assoc, takeWhile_append_all isBlank ind _ hind, hcp,
        List.cons_append, takeWhile_cons_neg isBlank '<' _ (by decide),
        List.append_nil]
  have hdw : ((ind ++ "</p>".toList) ++ post).dropWhile isBlank =
      "</p>".toList ++ post := by
    rw [List.append_assoc, dropWhile_append_all isBlank ind _ hind, hcp,
        List.cons_append, dropWhile_cons_neg isBlank '<' _ (by decide),
        ← List.cons_append, ← hcp]
  simp only [checkCloseP, htw, hdw]
  rw [if_pos (List.isPrefixOf_iff_prefix.mpr ⟨post, rfl⟩)]

theorem findCloseP_sound :
    ∀ fuel s inner close, findCloseP fuel s = some (inner, close) →
      ∃ post, s = inner ++ (close ++ post) ∧ LineEndOk inner ∧ PCloseGroup close ∧
        (∀ u w, inner = u ++ w → LineEndOk u →
          w = [] ∨ checkCloseP (w ++ (close ++ post)) = none) := by
  intro fuel
  induction fuel with
  | zero => intro s inner close h; simp [findCloseP] at h
  | succ n ih =>
    intro s inner close h
    simp only [findCloseP] at h
    cases hchk : checkCloseP s with
    | some g3 =>
      rw [hchk] at h
      dsimp only at h
      simp only [Option.some.injEq, Prod.mk.injEq] at h
      obtain ⟨h1, h2⟩ := h
      subst h1
      subst h2
      obtain ⟨post, hdec, hshape⟩ := checkCloseP_sound s g3 hchk
      refine ⟨post, by simpa using hdec, Or.inl rfl, hshape, ?_⟩
      intro u w huw _
      left
      have : u = [] ∧ w = [] := by
        constructor
        · exact List.eq_nil_of_length_eq_zero (by
            have := congrArg List.length huw
            simp at this
            omega)
        · exact List.eq_nil_of_length_eq_zero (by
            have := congrArg List.length huw
            simp at this
            omega)
      exact this.2
    | none =>
      rw [hchk] at h
      dsimp only at h
      cases hsp : splitAtChar '\n' s with
      | none => rw [hsp] at h; cases h
      | some p =>
        obtain ⟨line, rest⟩ := p
        rw [hsp] at h
        dsimp only at h
        cases hrec : findCloseP n rest with
        | none => rw [hrec] at h; cases h
        | some q =>
          obtain ⟨inner0, close0⟩ := q
          rw [hrec] at h
          dsimp only at h
          simp only [Option.some.injEq, Prod.mk.injEq] at h
          obtain ⟨h1, h2⟩ := h
          subst h1
          subst h2
          obtain ⟨post, hdec, hle, hshape, hmin⟩ := ih rest inner0 close0 hrec
          obtain ⟨hsdec, hnline⟩ := splitAtChar_decomp '\n' s line rest hsp
          refine ⟨post, ?_, lineEndOk_extend line inner0 hle, hshape, ?_⟩
          · rw [hsdec, hdec]
            simp
          · intro u w huw hu
            rcases hu with hunil | hulast
            · subst hunil
              right
              simp only [List.nil_append] at huw
              rw [← huw]
              have hws : (line ++ '\n' :: inner0) ++ (close0 ++ post) = s := by
                rw [hsdec, hdec]
                simp
              rw [hws]
              exact hchk
            · rcases (List.append_eq_append_iff).mp huw.symm with
                ⟨a', ha1, ha2⟩ | ⟨c', hc1, hc2⟩
              · -- u ++ a' = line : impossible since u ends in a newline
                exfalso
                have hune : u ≠ [] := by
                  intro hn; subst hn; simp at hulast
                have : '\n' ∈ line := by
                  rw [ha1]
                  exact List.mem_append_left _ (List.mem_of_mem_getLast? hulast)
                exact hnline this
              · cases c' with
                | nil =>
                  exfalso
                  have hc1' : u = line := by simpa using hc1
                  rw [hc1'] at hulast
                  exact hnline (List.mem_of_mem_getLast? hulast)
                | cons d c0 =>
                  have hd : d = '\n' ∧ inner0 = c0 ++ w := by
                    have := hc2
                    simp only [List.cons_append, List.cons.injEq] at this
                    exact ⟨this.1.symm, this.2⟩
                  obtain ⟨hdnl, hin0⟩ := hd
                  subst hdnl
                  have hu0 : LineEndOk c0 := by
                    cases c0 with
                    | nil => exact Or.inl rfl
                    | cons x xs =>
                      right
                      have : u.getLast? = (x :: xs).getLast? := by
                        rw [hc1,
                            show line ++ '\n' :: (x :: xs) =
                              (line ++ ['\n']) ++ (x :: xs) from by simp,
                            getLast_append_right _ (x :: xs) (by simp)]
                      rw [← this]
                      exact hulast
                  exact hmin c0 w hin0 hu0

theorem findCloseP_complete :
    ∀ fuel u v, LineEndOk u → checkCloseP v ≠ none → u.length + 1 ≤ fuel →
      findCloseP fuel (u ++ v) ≠ none := by
  intro fuel
  induction fuel with
  | zero => intro u v _ _ hlen; omega
  | succ n ih =>
    intro u v hu hv hlen
    rw [findCloseP]
    cases hchk : checkCloseP (u ++ v) with
    | some g3 => simp
    | none =>
      dsimp only
      have hune : u ≠ [] := by
        intro hn
        subst hn
        simp at hchk
        exact hv hchk
      have hulast : u.getLast? = some '\n' := by
        rcases hu with hnil | hl
        · exact absurd hnil hune
        · exact hl
      have hmem : '\n' ∈ u := List.mem_of_mem_getLast? hulast
      obtain ⟨a, b, hab⟩ := splitAtChar_mem '\n' u hmem
      obtain ⟨hadec, hana⟩ := splitAtChar_decomp '\n' u a b hab
      have hsp : splitAtChar '\n' (u ++ v) = some (a, b ++ v) := by
        rw [hadec, List.append_assoc]
        exact splitAtChar_first '\n' a (b ++ v) hana
      rw [hsp]
      dsimp only
      have hb : LineEndOk b := by
        cases b with
        | nil => exact Or.inl rfl
        | cons x xs =>
          right
          have : u.getLast? = (x :: xs).getLast? := by
            rw [hadec, show a ++ '\n' :: (x :: xs) = (a ++ ['\n']) ++ (x :: xs) from by simp,
                getLast_append_right _ (x :: xs) (by simp)]
          rw [← this]
          exact hulast
      have hblen : b.length + 1 ≤ n := by
        have : u.length = a.length + 1 + b.length := by
          rw [hadec]; simp; omega
        omega
      have := ih b v hb hv hblen
      cases hrec : findCloseP n (b ++ v) with
      | none => exact absurd hrec this
      | some q =>
        obtain ⟨i0, c0⟩ := q
        simp

/-- A successful `matchOpenP` splits off exactly an opening group of the
accepted shape. -/
theorem matchOpenP_sound (tp s g1 rest : List Char)
    (h : matchOpenP tp s = some (g1, rest)) :
    s = g1 ++ rest ∧ POpenGroup tp g1 := by
  simp only [matchOpenP] at h
  cases hdw : s.dropWhile isBlank with
  | nil => rw [hdw] at h; cases h
  | cons a1 t1 =>
    cases t1 with
    | nil => rw [hdw] at h; dsimp only at h; cases h
    | cons a2 s2 =>
      rw [hdw] at h
      dsimp only at h
      by_cases ha1 : a1 = '<'
      · rw [if_pos ha1] at h
        by_cases ha2 : a2 = 'p'
        · rw [if_pos ha2] at h
          cases s2 with
          | nil => cases h
          | cons c s2t =>
            dsimp only at h
            by_cases hc : pyIsSpace c = true
            · rw [if_pos hc] at h
              by_cases hpre : ("id=\"bi-".toList ++ tp ++ ['"']).isPrefixOf
                  ((c :: s2t).dropWhile pyIsSpace) = true
              · rw [if_pos hpre] at h
                cases hsp : splitAtChar '>'
                    (((c :: s2t).dropWhile pyIsSpace).drop
                      ("id=\"bi-".toList ++ tp ++ ['"']).length) with
                | none => rw [hsp] at h; cases h
                | some p =>
                  obtain ⟨attrs, s5⟩ := p
                  rw [hsp] at h
                  dsimp only at h
                  cases hrun : matchOpenP.splitAtLastNl (s5.takeWhile pyIsSpace) with
                  | none => rw [hrun] at h; cases h
                  | some q =>
                    obtain ⟨runA, runB⟩ := q
                    rw [hrun] at h
                    dsimp only at h
                    simp only [Option.some.injEq, Prod.mk.injEq] at h
                    obtain ⟨hg1, hrest⟩ := h
                    obtain ⟨u, hu⟩ := List.isPrefixOf_iff_prefix.mp hpre
                    have hdropu : ((c :: s2t).dropWhile pyIsSpace).drop
                        ("id=\"bi-".toList ++ tp ++ ['"']).length = u := by
                      rw [← hu, List.drop_left]
                    rw [hdropu] at hsp
                    obtain ⟨hudec, hugt⟩ := splitAtChar_decomp '>' u attrs s5 hsp
                    obtain ⟨hrdec, hrlast, hrnb⟩ :=
                      splitAtLastNl_sound _ runA runB hrun
                    have hws : (c :: s2t).takeWhile pyIsSpace =
                        c :: s2t.takeWhile pyIsSpace := by
                      rw [List.takeWhile_cons, if_pos hc]
                    constructor
                    · calc s = s.takeWhile isBlank ++ s.dropWhile isBlank :=
                            (@List.takeWhile_append_dropWhile _ isBlank s).symm
                        _ = s.takeWhile isBlank ++ ('<' :: 'p' :: (c :: s2t)) := by
                            rw [hdw, ha1, ha2]
                        _ = s.takeWhile isBlank ++ ('<' :: 'p' ::
                              ((c :: s2t).takeWhile pyIsSpace ++
                                (c :: s2t).dropWhile pyIsSpace)) := by
                            rw [@List.takeWhile_append_dropWhile _ pyIsSpace (c :: s2t)]
                        _ = s.takeWhile isBlank ++ ('<' :: 'p' ::
                              ((c :: s2t).takeWhile pyIsSpace ++
                                (("id=\"bi-".toList ++ tp ++ ['"']) ++
                                  (attrs ++ '>' :: ((runA ++ runB) ++
                                    s5.dropWhile pyIsSpace))))) := by
                            rw [← hu, hudec, ← hrdec,
                                @List.takeWhile_append_dropWhile _ pyIsSpace s5]
                        _ = g1 ++ rest := by
                            rw [← hg1, ← hrest]
                            simp [List.append_assoc]
                    · refine ⟨s.takeWhile isBlank, (c :: s2t).takeWhile pyIsSpace,
                        attrs, runA, ?_, fun x hx => List.mem_takeWhile_imp hx,
                        by rw [hws]; simp, fun x hx => List.mem_takeWhile_imp hx,
                        hugt, ?_, hrlast⟩
                      · rw [← hg1]
                        simp [List.append_assoc]
                      · intro x hx
                        have : x ∈ s5.takeWhile pyIsSpace := by
                          rw [hrdec]
                          exact List.mem_append_left _ hx
                        exact List.mem_takeWhile_imp this
              · rw [if_neg hpre] at h; cases h
            · rw [if_neg hc] at h; cases h
        · rw [if_neg ha2] at h; cases h
      · rw [if_neg ha1] at h; cases h

/-- Soundness of the splitter scan: the three returned groups decompose
the input (after a line-aligned prefix) and have the block shapes. -/
theorem splitterScan_sound (tp : List Char) :
    ∀ fuel s g1 g2 g3, splitterScan tp fuel s = some (g1, g2, g3) →
      ∃ pre post, s = pre ++ (g1 ++ (g2 ++ (g3 ++ post))) ∧
        LineEndOk pre ∧ POpenGroup tp g1 ∧ LineEndOk g2 ∧ PCloseGroup g3 ∧
        (∀ u w, g2 = u ++ w → LineEndOk u →
          w = [] ∨ checkCloseP (w ++ (g3 ++ post)) = none) := by
  intro fuel
  induction fuel with
  | zero => intro s g1 g2 g3 h; simp [splitterScan] at h
  | succ n ih =>
    intro s g1 g2 g3 h
    simp only [splitterScan] at h
    cases hm : matchOpenP tp s with
    | some p =>
      obtain ⟨g1a, resta⟩ := p
      rw [hm] at h
      dsimp only at h
      cases hf : findCloseP (resta.length + 1) resta with
      | some q =>
        obtain ⟨innera, closea⟩ := q
        rw [hf] at h
        dsimp only at h
        simp only [Option.some.injEq, Prod.mk.injEq] at h
        obtain ⟨h1, h2, h3⟩ := h
        subst h1; subst h2; subst h3
        obtain ⟨hsdec, hshape⟩ := matchOpenP_sound tp s g1a resta hm
        obtain ⟨post, hfdec, hle, hclose, hmin⟩ := findCloseP_sound _ resta innera closea hf
        exact ⟨[], post, by rw [hsdec, hfdec]; simp, Or.inl rfl, hshape, hle, hclose, hmin⟩
      | none =>
        rw [hf] at h
        dsimp only at h
        cases hsp : splitAtChar '\n' s with
        | none => rw [hsp] at h; cases h
        | some r =>
          obtain ⟨line, rest1⟩ := r
          rw [hsp] at h
          dsimp only at h
          obtain ⟨pre1, post, hdec, hpre1, hsh1, hsh2, hsh3, hmin⟩ := ih rest1 g1 g2 g3 h
          obtain ⟨hd, _⟩ := splitAtChar_decomp '\n' s line rest1 hsp
          refine ⟨line ++ '\n' :: pre1, post, ?_, lineEndOk_extend line pre1 hpre1,
            hsh1, hsh2, hsh3, hmin⟩
          rw [hd, hdec]
          simp
    | none =>
      rw [hm] at h
      dsimp only at h
      cases hsp : splitAtChar '\n' s with
      | none => rw [hsp] at h; cases h
      | some r =>
        obtain ⟨line, rest1⟩ := r
        rw [hsp] at h
        dsimp only at h
        obtain ⟨pre1, post, hdec, hpre1, hsh1, hsh2, hsh3, hmin⟩ := ih rest1 g1 g2 g3 h
        obtain ⟨hd, _⟩ := splitAtChar_decomp '\n' s line rest1 hsp
        refine ⟨line ++ '\n' :: pre1, post, ?_, lineEndOk_extend line pre1 hpre1,
          hsh1, hsh2, hsh3, hmin⟩
        rw [hd, hdec]
        simp

/-- Completeness of the splitter scan: a line-aligned suffix on which the
open pattern matches with a reachable close line makes the scan succeed. -/
theorem splitterScan_complete (tp : List Char) :
    ∀ fuel pre v g1x restx, LineEndOk pre →
      matchOpenP tp v = some (g1x, restx) →
      findCloseP (restx.length + 1) restx ≠ none →
      pre.length + 1 ≤ fuel →
      splitterScan tp fuel (pre ++ v) ≠ none := by
  intro fuel
  induction fuel with
  | zero => intro pre v g1x restx _ _ _ hlen; omega
  | succ n ih =>
    intro pre v g1x restx hpre hm hf hlen
    rw [splitterScan]
    cases hms : matchOpenP tp (pre ++ v) with
    | some p =>
      obtain ⟨g1a, resta⟩ := p
      dsimp only
      cases hfs : findCloseP (resta.length + 1) resta with
      | some q => obtain ⟨i, c⟩ := q; simp
      | none =>
        dsimp only
        have hprene : pre ≠ [] := by
          intro hn
          subst hn
          simp only [List.nil_append] at hms
          rw [hm] at hms
          simp only [Option.some.injEq, Prod.mk.injEq] at hms
          obtain ⟨e1, e2⟩ := hms
          subst e1; subst e2
          exact hf hfs
        have hplast : pre.getLast? = some '\n' := by
          rcases hpre with hnil | hl
          · exact absurd hnil hprene
          · exact hl
        obtain ⟨a, b, hab⟩ :=
          splitAtChar_mem '\n' pre (List.mem_of_mem_getLast? hplast)
        obtain ⟨hadec, hana⟩ := splitAtChar_decomp '\n' pre a b hab
        have hsp : splitAtChar '\n' (pre ++ v) = some (a, b ++ v) := by
          rw [hadec, List.append_assoc]
          exact splitAtChar_first '\n' a (b ++ v) hana
        rw [hsp]
        dsimp only
        have hb : LineEndOk b := by
          cases b with
          | nil => exact Or.inl rfl
          | cons x xs =>
            right
            have : pre.getLast? = (x :: xs).getLast? := by
              rw [hadec,
                  show a ++ '\n' :: (x :: xs) = (a ++ ['\n']) ++ (x :: xs) from by simp,
                  getLast_append_right _ (x :: xs) (by simp)]
            rw [← this]
            exact hplast
        have hblen : b.length + 1 ≤ n := by
          have : pre.length = a.length + 1 + b.length := by
            rw [hadec]; simp; omega
          omega
        exact ih b v g1x restx hb hm hf hblen
    | none =>
      dsimp only
      have hprene : pre ≠ [] := by
        intro hn
        subst hn
        simp only [List.nil_append] at hms
        rw [hm] at hms
        cases hms
      have hplast : pre.getLast? = some '\n' := by
        rcases hpre with hnil | hl
        · exact absurd hnil hprene
        · exact hl
      obtain ⟨a, b, hab⟩ :=
        splitAtChar_mem '\n' pre (List.mem_of_mem_getLast? hplast)
      obtain ⟨hadec, hana⟩ := splitAtChar_decomp '\n' pre a b hab
      have hsp : splitAtChar '\n' (pre ++ v) = some (a, b ++ v) := by
        rw [hadec, List.append_assoc]
        exact splitAtChar_first '\n' a (b ++ v) hana
      rw [hsp]
      dsimp only
      have hb : LineEndOk b := by
        cases b with
        | nil => exact Or.inl rfl
        | cons x xs =>
          right
          have : pre.getLast? = (x :: xs).getLast? := by
            rw [hadec,
                show a ++ '\n' :: (x :: xs) = (a ++ ['\n']) ++ (x :: xs) from by simp,
                getLast_append_right _ (x :: xs) (by simp)]
          rw [← this]
          exact hplast
      have hblen : b.length + 1 ≤ n := by
        have : pre.length = a.length + 1 + b.length := by
          rw [hadec]; simp; omega
        omega
      exact ih b v g1x restx hb hm hf hblen

/-- C8 (counterexample): the markup `<div id="bi-article">\n x\n</div>`
contains a marker block of the claimed generic shape
`<tag id="bi-{type}"> … </tag>` (with tag `div`), yet the splitter
reports element-not-found: its pattern only ever matches `<p …>` blocks
whose opening tag starts a line and ends its line, so the claimed "for
every style markup … exactly when no such block exists" fails. -/
theorem claim_C8_cex :
    ClaimTagBlock "article".toList c8DivHtml ∧
    splitter_split "article".toList c8DivHtml = none := by
  constructor
  · exact ⟨"div".toList, [], "\n x\n".toList, [], by decide, by decide, by decide⟩
  · decide

/-- C8 (amended): `Generator._Splitter.split` succeeds exactly on markups
containing, at a line start, a `<p>` marker block: an opening line
`[ \t]*<p` + whitespace + `id="bi-{type}"` (type verbatim) + `>`-free
attribute text + `>` + whitespace ending in a newline, then a lazily
small middle part (empty or newline-terminated, no earlier line of it
starting `[ \t]*</p>` — the closing tag matched is the nearest subsequent
one), then a closing line `[ \t]*</p>`; on success the three captured
groups decompose the markup exactly into opening tag part, inner template
body and closing tag, and `none` (ElementNotFoundError) is returned
exactly when no such decomposition exists. The worked example splits the
`bi-article` paragraph block of a template into its three groups, and a
markup whose only block carries a different type id yields `none`. -/
theorem claim_C8 :
    (∀ tp html g1 g2 g3,
        splitter_split tp html = some (g1, g2, g3) →
        ∃ pre post, html = pre ++ (g1 ++ (g2 ++ (g3 ++ post))) ∧
          LineEndOk pre ∧ POpenGroup tp g1 ∧ LineEndOk g2 ∧ PCloseGroup g3 ∧
          (∀ u w, g2 = u ++ w → LineEndOk u →
            w = [] ∨ checkCloseP (w ++ (g3 ++ post)) = none)) ∧
    (∀ tp html pre g1 g2 g3 post,
        html = pre ++ (g1 ++ (g2 ++ (g3 ++ post))) →
        LineEndOk pre → POpenGroup tp g1 → LineEndOk g2 → PCloseGroup g3 →
        splitter_split tp html ≠ none) ∧
    splitter_split "article".toList c8Template = some (c8G1, c8G2, c8G3) ∧
    splitter_split "misc".toList c8Template = none := by
  refine ⟨?_, ?_, by decide, by decide⟩
  · intro tp html g1 g2 g3 h
    exact splitterScan_sound tp (html.length + 1) html g1 g2 g3 h
  · intro tp html pre g1 g2 g3 post hdec hpre h1 h2 h3
    subst hdec
    obtain ⟨g1x, u, hm, hu⟩ := matchOpenP_complete tp g1 g2 g3 post h1 h2 h3
    have hchk : checkCloseP (g3 ++ post) ≠ none := by
      rw [checkCloseP_complete g3 post h3]
      simp
    have hfc : findCloseP ((u ++ (g3 ++ post)).length + 1) (u ++ (g3 ++ post)) ≠
        none := by
      apply findCloseP_complete _ u (g3 ++ post) hu hchk
      simp
    have := splitterScan_complete tp
      ((pre ++ (g1 ++ (g2 ++ (g3 ++ post)))).length + 1) pre
      (g1 ++ (g2 ++ (g3 ++ post))) g1x (u ++ (g3 ++ post)) hpre hm hfc
      (by simp)
    simpa [splitter_split] using this

/-- C8 witness: both directions of the characterisation instantiated at
the worked template. -/
theorem claim_C8_witness :
    (∃ pre post, c8Template = pre ++ (c8G1 ++ (c8G2 ++ (c8G3 ++ post))) ∧
      LineEndOk pre ∧ POpenGroup "article".toList c8G1 ∧ LineEndOk c8G2 ∧
      PCloseGroup c8G3 ∧
      (∀ u w, c8G2 = u ++ w → LineEndOk u →
        w = [] ∨ checkCloseP (w ++ (c8G3 ++ post)) = none)) ∧
    splitter_split "article".toList c8Template ≠ none :=
  ⟨claim_C8.1 "article".toList c8Template c8G1 c8G2 c8G3 (by decide),
   claim_C8.2.1 "article".toList c8Template "<div>\n".toList c8G1 c8G2 c8G3
     "\n</div>".toList (by decide) (Or.inr (by decide))
     ⟨"  ".toList, " ".toList, " class=\"x\"".toList, "\n".toList, by decide,
       by decide, by decide, by decide, by decide, by decide, by decide⟩
     (Or.inr (by decide))
     ⟨"  ".toList, by decide, by decide⟩⟩

end BibInject

